import Mathlib

/-!
Verification development for the waybar layout/style manager
(`Configs/.local/lib/hyde/waybar.py`).

The Python module is shallowly embedded: file contents and paths are lists
of characters, the filesystem is an association list from paths to contents,
and every fallible operation returns `Except Err`.  An `Except.error` result
models the process aborting (unhandled exception or `sys.exit`) with the
filesystem left exactly as it was at the point of failure, since every
modelled operation performs its writes only after all of its reads succeed.
-/

namespace Waybar

/-- Paths and file contents are lists of characters (Python `str`). -/
abbrev Str := List Char

/-- Shorthand turning a Lean string literal into the character-list model. -/
def S (s : String) : Str := s.data

/-- `startsWithL s p` models Python `s.startswith(p)`. -/
def startsWithL : Str → Str → Bool
  | _, [] => true
  | [], _ :: _ => false
  | c :: cs, d :: ds => c = d && startsWithL cs ds

/-- `endsWithL s p` models Python `s.endswith(p)`. -/
def endsWithL (s p : Str) : Bool :=
  startsWithL s.reverse p.reverse

/-- The characters Python `str.strip()` removes (ASCII whitespace). -/
def isPySpace (c : Char) : Bool :=
  c = ' ' || c = '\t' || c = '\n' || c = '\r' || c = '\x0b' || c = '\x0c'

/-- Python `str.strip()`: drop whitespace from both ends. -/
def stripL (s : Str) : Str :=
  ((s.dropWhile isPySpace).reverse.dropWhile isPySpace).reverse

/-- Python `file.readlines()` / line iteration: split into lines, each line
keeping its trailing newline; a final fragment without a newline is kept as a
last line; the empty content yields no lines. -/
def splitLines : Str → List Str
  | [] => []
  | c :: rest =>
    match splitLines rest with
    | [] => [[c]]
    | l :: ls => if c = '\n' then [c] :: l :: ls else (c :: l) :: ls

/-- Python `s.split(sep)` for a one-character separator: always returns at
least one field; splits at every occurrence. -/
def splitOnChar (sep : Char) : Str → List Str
  | [] => [[]]
  | c :: rest =>
    if c = sep then [] :: splitOnChar sep rest
    else
      match splitOnChar sep rest with
      | [] => [[c]]
      | f :: fs => (c :: f) :: fs

/-- Python `s.replace(".jsonc", "")`: removes every occurrence of the
substring `.jsonc`, scanning left to right without overlap. -/
def replaceDotJsonc : Str → Str
  | '.' :: 'j' :: 's' :: 'o' :: 'n' :: 'c' :: rest => replaceDotJsonc rest
  | c :: rest => c :: replaceDotJsonc rest
  | [] => []

/-- Python `os.path.basename`: the part after the last slash. -/
def basenameOf (p : Str) : Str :=
  (p.reverse.takeWhile (fun c => c ≠ '/')).reverse

/-- Python string comparison (used by `sorted`): lexicographic by code point. -/
def strLe : Str → Str → Bool
  | [], _ => true
  | _ :: _, [] => false
  | a :: as, b :: bs => if a.toNat = b.toNat then strLe as bs else a.toNat < b.toNat

/-- Insert into a `strLe`-sorted list, keeping it sorted. -/
def insertSorted (a : Str) : List Str → List Str
  | [] => [a]
  | b :: rest => if strLe a b then a :: b :: rest else b :: insertSorted a rest

/-- Python `sorted` on a list of strings (insertion sort; stability is
unobservable on plain strings since equal elements are identical). -/
def sortStr : List Str → List Str
  | [] => []
  | a :: rest => insertSorted a (sortStr rest)

/-- Errors with which a modelled call can abort: an unhandled
`FileNotFoundError`, `sys.exit(1)`, a `ValueError` from `list.index`, or an
`IndexError`.  Aborting leaves the filesystem as it was. -/
inductive Err where
  | fileNotFound : Str → Err
  | exitOne : Err
  | valueError : Err
  | indexError : Err
deriving DecidableEq

/-- The filesystem: an association list from file paths to file contents.
Lookups use the first matching entry. -/
structure FS where
  files : List (Str × Str)
deriving DecidableEq

/-- Content of a file, if present. -/
def FS.lookup (fs : FS) (p : Str) : Option Str :=
  (fs.files.find? (fun e => e.1 = p)).map (fun e => e.2)

/-- Python `os.path.exists`. -/
def fsExists (fs : FS) (p : Str) : Bool :=
  (fs.lookup p).isSome

/-- Python `os.path.getsize` (0 when the file is absent; only ever consulted
on existing files by the modelled code). -/
def fileSize (fs : FS) (p : Str) : Nat :=
  ((fs.lookup p).getD []).length

/-- `open(p)` followed by a read: fails with `FileNotFoundError` when absent. -/
def readFile (fs : FS) (p : Str) : Except Err Str :=
  match fs.lookup p with
  | some c => .ok c
  | none => .error (.fileNotFound p)

/-- Replace the first entry for `p` in place, or append a new entry. -/
def replaceEntry : List (Str × Str) → Str → Str → List (Str × Str)
  | [], p, c => [(p, c)]
  | e :: rest, p, c => if e.1 = p then (p, c) :: rest else e :: replaceEntry rest p c

/-- `open(p, "w")` and write: create or truncate-and-replace. -/
def writeFile (fs : FS) (p c : Str) : FS :=
  ⟨replaceEntry fs.files p c⟩

/-- `open(p, "a")` and write: append to the existing content, creating the
file when absent. -/
def appendFile (fs : FS) (p c : Str) : FS :=
  match fs.lookup p with
  | some old => writeFile fs p (old ++ c)
  | none => writeFile fs p c

/-- The environment the module reads at load time: the expanded values of
`XDG_CONFIG_HOME`, `XDG_DATA_HOME`, `HYDE_STATE_HOME` and `XDG_CACHE_HOME`
(after `os.path.expanduser`, with their defaults applied). -/
structure Env where
  xdgConfigHome : Str
  xdgDataHome : Str
  hydeStateHome : Str
  xdgCacheHome : Str
deriving DecidableEq

/-- The module-level `LAYOUT_DIRS` list (the second assignment in the source;
both assignments build the same list). -/
def LAYOUT_DIRS (env : Env) : List Str :=
  [ env.xdgConfigHome ++ S "/waybar/layouts"
  , env.xdgDataHome ++ S "/waybar/layouts"
  , S "/usr/local/share/waybar/layouts"
  , S "/usr/share/waybar/layouts" ]

/-- The module-level `STYLE_DIRS` list (the system-wide entries are commented
out in the source). -/
def STYLE_DIRS (env : Env) : List Str :=
  [ env.xdgConfigHome ++ S "/waybar/styles"
  , env.xdgDataHome ++ S "/waybar/styles" ]

/-- The state file path used by `ensure_state_file`, `set_layout` and
`handle_layout_navigation`. -/
def state_file (env : Env) : Str :=
  env.hydeStateHome ++ S "/staterc"

/-- The installed-configuration path `~/.config/waybar/config.jsonc`. -/
def config_filepath (env : Env) : Str :=
  env.xdgConfigHome ++ S "/waybar/config.jsonc"

/-- The installed-style path `~/.config/waybar/style.css`. -/
def style_filepath (env : Env) : Str :=
  env.xdgConfigHome ++ S "/waybar/style.css"

/-- `os.walk(dir)` restricted to what the callers use: every file whose path
lies strictly below `dir`.  A directory with no files below it (including a
nonexistent one) yields nothing, without error, exactly as `os.walk` does. -/
def walkFiles (fs : FS) (dir : Str) : List Str :=
  (fs.files.map Prod.fst).filter (fun p => startsWithL p (dir ++ S "/"))

/-- `find_layout_files`: recursively collect `*.jsonc` files under every
layout directory, then `sorted(...)`.  No de-duplication is performed. -/
def find_layout_files (env : Env) (fs : FS) : List Str :=
  sortStr (((LAYOUT_DIRS env).map (walkFiles fs)).flatten.filter
    (fun p => endsWithL p (S ".jsonc")))

/-- `get_file_hash`: the SHA-256 digest of a file, failing when the file is
unreadable.  The digest is modelled as the file content itself — an injective
fingerprint, faithful because the source only ever compares digests for
equality and the comparison is byte-exact. -/
def get_file_hash (fs : FS) (p : Str) : Except Err Str :=
  readFile fs p

/-- The filename of `p` inside directory `dir`, when `p` is a direct child of
`dir`; `none` otherwise.  Used to model non-recursive `glob`. -/
def fileNameInDir (dir p : Str) : Option Str :=
  if startsWithL p (dir ++ S "/") then
    if (p.drop (dir.length + 1)).contains '/' then none
    else some (p.drop (dir.length + 1))
  else none

/-- `glob.glob(os.path.join(style_dir, f"[name]*.css"))`: the files directly
in `style_dir` whose name starts with `name` and ends with `.css` (the `*`
matching the possibly-empty middle).  Result order follows directory order
(`glob` does not sort); the fixed names used here contain no glob
metacharacters. -/
def globNameCss (fs : FS) (dir name : Str) : List Str :=
  (fs.files.map Prod.fst).filter (fun p =>
    match fileNameInDir dir p with
    | some f => startsWithL f name && endsWithL (f.drop name.length) (S ".css")
    | none => false)

/-- The per-directory search loop of `resolve_style_path`.  In each style
directory it first globs for the current `name`, then destructively strips
the `#tag` suffix (`name = name.split("#")[0]`) and globs again, before
moving to the next directory.  The stripped name persists into later
iterations because the source mutates `name` in place. -/
def resolve_style_loop (fs : FS) : Str → List Str → Option Str
  | _, [] => none
  | name, d :: rest =>
    match globNameCss fs d name with
    | p :: _ => some p
    | [] =>
      match globNameCss fs d (name.takeWhile (fun c => c ≠ '#')) with
      | p :: _ => some p
      | [] => resolve_style_loop fs (name.takeWhile (fun c => c ≠ '#')) rest

/-- `resolve_style_path`: name-based search over the style directories, then
the first existing `defaults.css`, then the `defaults.css` sentinel under the
first style directory.  Total: `STYLE_DIRS` always has two entries, so the
final `STYLE_DIRS[0]` never raises. -/
def resolve_style_path (env : Env) (fs : FS) (layout_path : Str) : Str :=
  match resolve_style_loop fs (replaceDotJsonc (basenameOf layout_path)) (STYLE_DIRS env) with
  | some p => p
  | none =>
    match (STYLE_DIRS env).find? (fun d => fsExists fs (d ++ S "/defaults.css")) with
    | some d => d ++ S "/defaults.css"
    | none => ((STYLE_DIRS env).headD []) ++ S "/defaults.css"

/-- One entry of `list_layouts`: the layout path, its display name, and its
resolved style. -/
structure LayoutPair where
  layout : Str
  name : Str
  style : Str
deriving DecidableEq

/-- `os.path.relpath(p, start=d)` for the only case the source exercises:
`d` an ancestor directory of `p` (every catalog entry starts with its
matching search directory followed by a slash). -/
def relpathFrom (d p : Str) : Str :=
  (p.drop d.length).dropWhile (fun c => c = '/')

/-- The display name of a layout: relative to the first layout directory that
is a textual prefix of its path, with `.jsonc` removed; `none` when no
directory matches (such an entry is silently skipped by `list_layouts`). -/
def layoutName (layoutDirs : List Str) (layout : Str) : Option Str :=
  match layoutDirs.find? (fun d => startsWithL layout d) with
  | some d => some (replaceDotJsonc (relpathFrom d layout))
  | none => none

/-- `list_layouts`: every discovered layout paired with its display name and
resolved style. -/
def list_layouts (env : Env) (fs : FS) : List LayoutPair :=
  (find_layout_files env fs).filterMap (fun layout =>
    match layoutName (LAYOUT_DIRS env) layout with
    | some name => some ⟨layout, name, resolve_style_path env fs layout⟩
    | none => none)

/-- The target-resolution loop at the top of `set_layout`: the first catalog
pair whose full path or display name equals the requested layout. -/
def set_layout_find (pairs : List LayoutPair) (target : Str) : Option Str :=
  match pairs.find? (fun pr => target = pr.layout || target = pr.name) with
  | some pr => some pr.layout
  | none => none

/-- The managed state-file keys. -/
def layoutKey : Str := S "WAYBAR_LAYOUT_PATH="

/-- The second managed state-file key. -/
def styleKey : Str := S "WAYBAR_STYLE_PATH="

/-- The line-rewriting step of `set_layout`: a line for a managed key is
replaced with the freshly computed value; every other line is written back
verbatim.  A missing managed line is not appended. -/
def rewriteLine (lp sp l : Str) : Str :=
  if startsWithL l layoutKey then layoutKey ++ lp ++ ['\n']
  else if startsWithL l styleKey then styleKey ++ sp ++ ['\n']
  else l

/-- `write_style_file`: the generated wrapper written to `style.css`.  The
decorative banner comment is abridged; the import structure — resolved style,
wallbash colors, `theme.css`, `user-style.css`, in that order — is kept. -/
def write_style_file_content (env : Env) (fs : FS) (source_filepath : Str) : Str :=
  let wallbash := env.xdgCacheHome ++ S "/hyde/wallbash/gtk.css"
  let wallbashStr :=
    if fsExists fs wallbash then S "@import \"" ++ wallbash ++ S "\";"
    else S "/*  wallbash gtk.css not found   */"
  S "/* Modified by Hyde */\n@import \"" ++ source_filepath ++ S "\";\n"
    ++ wallbashStr ++ S "\n@import \"theme.css\";\n@import \"user-style.css\";\n"

/-- The state-file rewrite performed by `set_layout`: read all lines, write
each back through `rewriteLine`. -/
def rewriteStateContent (lp sp content : Str) : Str :=
  ((splitLines content).map (rewriteLine lp sp)).flatten

/-- `set_layout`: resolve the target by path or name (exiting with status 1
when nothing matches, before touching any file), resolve its style, rewrite
the state file in place, copy the layout over `config.jsonc`, and write the
generated `style.css`.  The trailing `pkill -SIGUSR2 waybar` is an external
fire-and-forget signal with no filesystem effect and is not modelled. -/
def set_layout (env : Env) (fs : FS) (target : Str) : Except Err FS :=
  match set_layout_find (list_layouts env fs) target with
  | none => .error .exitOne
  | some lp =>
    if lp = [] then .error .exitOne
    else
      match readFile fs (state_file env) with
      | .error e => .error e
      | .ok st =>
        match readFile (writeFile fs (state_file env)
            (rewriteStateContent lp (resolve_style_path env fs lp) st)) lp with
        | .error e => .error e
        | .ok lc =>
          .ok (writeFile
            (writeFile (writeFile fs (state_file env)
                (rewriteStateContent lp (resolve_style_path env fs lp) st))
              (config_filepath env) lc)
            (style_filepath env)
            (write_style_file_content env
              (writeFile (writeFile fs (state_file env)
                  (rewriteStateContent lp (resolve_style_path env fs lp) st))
                (config_filepath env) lc)
              (resolve_style_path env fs lp)))

/-- The state-file reader in `handle_layout_navigation`: the first line
starting with `WAYBAR_LAYOUT_PATH=`, split on every `=`, second field,
stripped.  `none` when no line carries the key. -/
def findCurrentLayout : List Str → Option Str
  | [] => none
  | l :: rest =>
    if startsWithL l layoutKey then
      some (stripL ((splitOnChar '=' l).getD 1 []))
    else findCurrentLayout rest

/-- `get_current_layout_from_config`: hash `config.jsonc` and return the
first catalog entry with an equal hash, `none` when nothing matches. -/
def findHashMatch (fs : FS) (h : Str) : List Str → Except Err (Option Str)
  | [] => .ok none
  | p :: rest =>
    match get_file_hash fs p with
    | .error e => .error e
    | .ok hp => if hp = h then .ok (some p) else findHashMatch fs h rest

/-- `get_current_layout_from_config` itself. -/
def get_current_layout_from_config (env : Env) (fs : FS) : Except Err (Option Str) :=
  match get_file_hash fs (config_filepath env) with
  | .error e => .error e
  | .ok h => findHashMatch fs h (find_layout_files env fs)

/-- A navigation intent: `--next` or `--prev`.  (`--set` delegates to
`set_layout` with the command-line target and is modelled by calling
`set_layout` directly.) -/
inductive NavOpt where
  | next
  | prev
deriving DecidableEq

/-- The inverse intent. -/
def NavOpt.flip : NavOpt → NavOpt
  | .next => .prev
  | .prev => .next

/-- The index arithmetic of `handle_layout_navigation`, in Python integer
semantics: `(i + 1) % n` and `(i - 1 + n) % n`.  (`n = 0` is unreachable:
an index was found, so the catalog is nonempty.) -/
def navTargetIndex (opt : NavOpt) (i n : Nat) : Int :=
  match opt with
  | .next => ((i : Int) + 1) % (n : Int)
  | .prev => ((i : Int) - 1 + (n : Int)) % (n : Int)

/-- The tail of `handle_layout_navigation` once a current layout known to be
in the catalog is fixed: locate its index, move one step circularly, and
delegate to `set_layout`. -/
def nav_with_current (env : Env) (fs : FS) (opt : NavOpt) (cur : Str) : Except Err FS :=
  match (find_layout_files env fs).findIdx? (fun l => l = cur) with
  | none => .error .valueError
  | some i =>
    match (find_layout_files env fs).get?
        (navTargetIndex opt i (find_layout_files env fs).length).toNat with
    | none => .error .indexError
    | some target => set_layout env fs target

/-- The body of `handle_layout_navigation` after the state file has been
read: extract the current layout (fail soft when the key is absent or the
value empty), recache through the content hash when the stored path is not
in the catalog, then navigate. -/
def nav_after_read (env : Env) (fs : FS) (opt : NavOpt) (st : Str) : Except Err FS :=
  match findCurrentLayout (splitLines st) with
  | none => .ok fs
  | some cur0 =>
    if cur0 = [] then .ok fs
    else
      match (if (find_layout_files env fs).contains cur0 then Except.ok (some cur0)
             else get_current_layout_from_config env fs : Except Err (Option Str)) with
      | .error e => .error e
      | .ok none => .ok fs
      | .ok (some cur) => nav_with_current env fs opt cur

/-- `handle_layout_navigation` for `--next`/`--prev`: list the catalog, read
the current layout path from the state file (an unguarded `open`, so a
missing state file raises), then proceed with `nav_after_read`. -/
def handle_layout_navigation (env : Env) (fs : FS) (opt : NavOpt) : Except Err FS :=
  match readFile fs (state_file env) with
  | .error e => .error e
  | .ok st => nav_after_read env fs opt st

/-- The `else` branch of `ensure_state_file`, reached when the state file
exists and is nonempty: append any missing managed key (when the installed
configuration reconciles against the catalog), do nothing when both keys are
present. -/
def ensure_state_file_else (env : Env) (fs : FS) (content : Str) : Except Err FS :=
  if !((splitLines content).any (fun l => startsWithL l layoutKey))
      || !((splitLines content).any (fun l => startsWithL l styleKey)) then
    match get_current_layout_from_config env fs with
    | .error e => .error e
    | .ok none => .ok fs
    | .ok (some cur) =>
      .ok (appendFile fs (state_file env)
        ((if !((splitLines content).any (fun l => startsWithL l layoutKey)) then
            layoutKey ++ cur ++ ['\n'] else [])
         ++ (if !((splitLines content).any (fun l => startsWithL l styleKey)) then
            styleKey ++ resolve_style_path env fs cur ++ ['\n'] else [])))
  else .ok fs

/-- `ensure_state_file`: create the state file with both managed keys when it
is missing or empty (if the installed configuration matches some catalog
entry by hash); otherwise proceed with `ensure_state_file_else`. -/
def ensure_state_file (env : Env) (fs : FS) : Except Err FS :=
  if !(fsExists fs (state_file env)) || fileSize fs (state_file env) = 0 then
    match get_current_layout_from_config env fs with
    | .error e => .error e
    | .ok none => .ok fs
    | .ok (some cur) =>
      .ok (writeFile fs (state_file env)
        (layoutKey ++ cur ++ ['\n'] ++ styleKey ++ resolve_style_path env fs cur ++ ['\n']))
  else
    match readFile fs (state_file env) with
    | .error e => .error e
    | .ok content => ensure_state_file_else env fs content

/-- The persisted layout value as navigation would read it back: `none` both
when the state file is unreadable and when no line carries the key. -/
def stateLayoutValue (env : Env) (fs : FS) : Option Str :=
  match readFile fs (state_file env) with
  | .error _ => none
  | .ok st => findCurrentLayout (splitLines st)

/-- A line produced by `splitLines` that ends with its newline: some
newline-free body followed by `'\n'`. -/
def isNlLine (l : Str) : Prop :=
  ∃ b, '\n' ∉ b ∧ l = b ++ ['\n']

/-- A final line without a trailing newline: nonempty and newline-free. -/
def isBareLine (l : Str) : Prop :=
  ∃ b, '\n' ∉ b ∧ b ≠ [] ∧ l = b

/-- The shape invariant of `splitLines` output: every line but the last ends
with a newline and contains no interior newline; the last line may lack the
trailing newline. -/
def WfLines : List Str → Prop
  | [] => True
  | [l] => isNlLine l ∨ isBareLine l
  | l :: rest => isNlLine l ∧ WfLines rest

/-- A state-file line owned by this module: it starts with one of the two
managed keys. -/
def isManagedLine (l : Str) : Bool :=
  startsWithL l layoutKey || startsWithL l styleKey

/-- A path the state-file round trip cannot corrupt: free of `=` (the reader
splits on every `=`), free of newlines (values are line-oriented), and
strip-invariant (the reader strips whitespace). -/
def cleanPath (p : Str) : Prop :=
  '=' ∉ p ∧ '\n' ∉ p ∧ stripL p = p

/-- The assumptions under which circular navigation round-trips: distinct
catalog entries with clean paths, newline-free filesystem paths and
environment roots, an installed-config path outside every layout directory
(so writes do not change the catalog), and display names that do not collide
with catalog paths (so `set_layout` resolves a path target by path). -/
def CleanSetup (env : Env) (fs : FS) : Prop :=
  (find_layout_files env fs).Nodup
  ∧ (∀ p ∈ find_layout_files env fs, cleanPath p)
  ∧ (∀ e ∈ fs.files, '\n' ∉ e.1)
  ∧ '\n' ∉ env.xdgConfigHome ∧ '\n' ∉ env.xdgDataHome ∧ '\n' ∉ env.hydeStateHome
  ∧ (∀ d ∈ LAYOUT_DIRS env, startsWithL (config_filepath env) (d ++ S "/") = false)
  ∧ (∀ pr ∈ list_layouts env fs, pr.name ∉ find_layout_files env fs)

/-! ### Concrete environments and filesystems used by counterexamples -/

/-- A small test environment: config home `/c`, data home `/d`, state home
`/s`, cache home `/h`. -/
def envT : Env := ⟨S "/c", S "/d", S "/s", S "/h"⟩

/-- Styles for C1: `bar.css` in the first style directory, `bar#compact.css`
in the second. -/
def fsC1 : FS := ⟨[(S "/c/waybar/styles/bar.css", S "x"),
                   (S "/d/waybar/styles/bar#compact.css", S "y")]⟩

/-- Catalog for C2: `b=1.jsonc` shares its content with `a.jsonc`; the state
file says `a.jsonc` is active; the installed config matches `a.jsonc`. -/
def fsC2 : FS := ⟨[(S "/c/waybar/layouts/a.jsonc", S "X"),
                   (S "/c/waybar/layouts/b=1.jsonc", S "X"),
                   (S "/c/waybar/layouts/c.jsonc", S "Y"),
                   (S "/s/staterc", S "WAYBAR_LAYOUT_PATH=/c/waybar/layouts/a.jsonc\n"),
                   (S "/c/waybar/config.jsonc", S "X")]⟩

/-- State file for C3: only a foreign key, no managed keys. -/
def fsC3 : FS := ⟨[(S "/c/waybar/layouts/a.jsonc", S "X"),
                   (S "/s/staterc", S "OTHER_KEY=value\n")]⟩

/-- Filesystem for C5: a catalog exists but the state file does not. -/
def fsC5 : FS := ⟨[(S "/c/waybar/layouts/a.jsonc", S "X")]⟩

/-- Filesystem for C6: readable state file and installed config, but no
layout file anywhere — the catalog is empty. -/
def fsC6 : FS := ⟨[(S "/s/staterc", S "WAYBAR_LAYOUT_PATH=/x.jsonc\n"),
                   (S "/c/waybar/config.jsonc", S "X")]⟩

/-- Filesystem for C8: the pre-existing state file does not end with a
newline, and the installed config matches a catalog entry by hash. -/
def fsC8 : FS := ⟨[(S "/s/staterc", S "OTHER=1"),
                   (S "/c/waybar/config.jsonc", S "X"),
                   (S "/c/waybar/layouts/a.jsonc", S "X")]⟩

/-- Environment for C9: the user config home nests inside the system layout
directory, so one file is reachable from two search roots. -/
def envC9 : Env := ⟨S "/usr/share/waybar/layouts/s", S "/d", S "/s", S "/h"⟩

/-- The single layout file for C9, below both search roots. -/
def fsC9 : FS := ⟨[(S "/usr/share/waybar/layouts/s/waybar/layouts/x.jsonc", S "X")]⟩

/-- Filesystem for C10: a layout whose filename contains a space before an
`=`, plus a state file with an existing managed line to rewrite. -/
def fsC10 : FS := ⟨[(S "/c/waybar/layouts/b =1.jsonc", S "X"),
                    (S "/s/staterc", S "WAYBAR_LAYOUT_PATH=/old\n")]⟩

/-- The error with which a modelled call aborted, if it aborted. -/
def errorOf (e : Except Err FS) : Option Err :=
  match e with
  | .error er => some er
  | .ok _ => none

instance : DecidableEq (Except Err FS) := fun a b =>
  match a, b with
  | .ok x, .ok y =>
    match decEq x y with
    | isTrue h => isTrue (by rw [h])
    | isFalse h => isFalse (fun hc => h (Except.ok.inj hc))
  | .error x, .error y =>
    match decEq x y with
    | isTrue h => isTrue (by rw [h])
    | isFalse h => isFalse (fun hc => h (Except.error.inj hc))
  | .ok _, .error _ => isFalse (fun hc => Except.noConfusion hc)
  | .error _, .ok _ => isFalse (fun hc => Except.noConfusion hc)

/-- Witness filesystem for C3: a state file with a foreign key and both
managed keys present. -/
def fsC3W : FS := ⟨[(S "/c/waybar/layouts/a.jsonc", S "X"),
  (S "/s/staterc", S "OTHER=1\nWAYBAR_LAYOUT_PATH=/old\nWAYBAR_STYLE_PATH=/olds\n")]⟩

/-- The filesystem after the C3 witness run of `set_layout`. -/
def fs2C3W : FS :=
  ((set_layout envT fsC3W (S "/c/waybar/layouts/a.jsonc")).toOption).getD ⟨[]⟩

/-- Witness filesystem for C10: a state file with one managed line. -/
def fsC10W : FS := ⟨[(S "/c/waybar/layouts/a.jsonc", S "X"),
  (S "/s/staterc", S "WAYBAR_LAYOUT_PATH=/old\n")]⟩

/-- The filesystem after the C10 witness run of `set_layout`. -/
def fs2C10W : FS :=
  ((set_layout envT fsC10W (S "/c/waybar/layouts/a.jsonc")).toOption).getD ⟨[]⟩

/-- Witness filesystem for C8: a newline-terminated state file missing both
managed keys, with a reconcilable installed configuration. -/
def fsC8W : FS := ⟨[(S "/s/staterc", S "OTHER=1\n"),
  (S "/c/waybar/config.jsonc", S "X"),
  (S "/c/waybar/layouts/a.jsonc", S "X")]⟩

/-- The filesystem after the C8 witness bootstrap. -/
def fs2C8W : FS :=
  ((ensure_state_file envT fsC8W).toOption).getD ⟨[]⟩

/-- Witness filesystem for C2: a two-entry catalog with clean, duplicate-free
paths and a state file whose stored layout is the first catalog entry. -/
def fsC2W : FS := ⟨[(S "/c/waybar/layouts/a.jsonc", S "A"),
  (S "/c/waybar/layouts/b.jsonc", S "B"),
  (S "/s/staterc",
   S "WAYBAR_LAYOUT_PATH=/c/waybar/layouts/a.jsonc\nWAYBAR_STYLE_PATH=/x.css\n")]⟩

/-! ### Counterexamples -/

set_option maxRecDepth 8192

/-- Claim C1, counterexample.  The layout `bar#compact` has a full-name match
`bar#compact.css` in the lower-precedence style directory, yet resolution
returns the stripped base-name match `bar.css` from the higher-precedence
directory: the full-name pass is not completed across all directories before
the base-name pass begins — the search interleaves both passes per directory. -/
theorem c1_counterexample :
    resolve_style_path envT fsC1 (S "/l/bar#compact.jsonc") = S "/c/waybar/styles/bar.css"
    ∧ globNameCss fsC1 (S "/d/waybar/styles") (S "bar#compact")
        = [S "/d/waybar/styles/bar#compact.css"]
    ∧ S "/c/waybar/styles/bar.css" ≠ S "/d/waybar/styles/bar#compact.css" := by
  decide

/-- Claim C2, counterexample.  In a 3-entry catalog whose middle entry
`b=1.jsonc` contains `=` and shares its content with `a.jsonc`, starting from
`a.jsonc`, `--next` then `--prev` ends on `c.jsonc`, not back on `a.jsonc`:
the persisted value is truncated at the `=` on read-back, the recache by
content hash resolves to the wrong duplicate, and the round trip breaks. -/
theorem c2_counterexample :
    stateLayoutValue envT fsC2 = some (S "/c/waybar/layouts/a.jsonc")
    ∧ (find_layout_files envT fsC2).length = 3
    ∧ ((handle_layout_navigation envT fsC2 .next).toOption.bind
        (fun fs1 => (handle_layout_navigation envT fs1 .prev).toOption)).map
          (stateLayoutValue envT)
      = some (some (S "/c/waybar/layouts/c.jsonc"))
    ∧ S "/c/waybar/layouts/c.jsonc" ≠ S "/c/waybar/layouts/a.jsonc" := by
  decide

/-- Claim C3, counterexample.  Writing into a state file that contains only a
foreign key leaves the file without any managed line: `set_layout` updates
managed keys in place when present but never appends absent ones. -/
theorem c3_counterexample :
    (set_layout envT fsC3 (S "/c/waybar/layouts/a.jsonc")).toOption.map
      (fun fs2 => FS.lookup fs2 (S "/s/staterc"))
      = some (some (S "OTHER_KEY=value\n"))
    ∧ (splitLines (S "OTHER_KEY=value\n")).any (fun l => startsWithL l layoutKey) = false := by
  decide

/-- Claim C5, counterexample.  With the state file merely missing, the
navigation read raises `FileNotFoundError` instead of failing soft. -/
theorem c5_counterexample :
    fsExists fsC5 (state_file envT) = false
    ∧ errorOf (handle_layout_navigation envT fsC5 .next)
        = some (.fileNotFound (S "/s/staterc")) := by
  decide

/-- Claim C6, counterexample.  Navigation over an empty catalog (state file
readable, installed config present) terminates normally — exit status zero —
returning the filesystem unchanged; there is no distinct `EmptyCatalog`
error and no non-zero status. -/
theorem c6_counterexample :
    find_layout_files envT fsC6 = []
    ∧ (handle_layout_navigation envT fsC6 .next).toOption = some fsC6
    ∧ errorOf (handle_layout_navigation envT fsC6 .next) = none := by
  decide

/-- Claim C8, counterexample.  When the pre-existing state file does not end
with a newline, the first bootstrap glues `WAYBAR_LAYOUT_PATH=` onto the last
line; the second bootstrap then fails to see the key and appends it again, so
the file after the second call differs from the file after the first. -/
theorem c8_counterexample :
    ((ensure_state_file envT fsC8).toOption.bind
        (fun fs1 => (ensure_state_file envT fs1).toOption.map
          (fun fs2 => (FS.lookup fs1 (state_file envT), FS.lookup fs2 (state_file envT)))))
      = some
        (some (S "OTHER=1WAYBAR_LAYOUT_PATH=/c/waybar/layouts/a.jsonc\nWAYBAR_STYLE_PATH=/c/waybar/styles/defaults.css\n"),
         some (S "OTHER=1WAYBAR_LAYOUT_PATH=/c/waybar/layouts/a.jsonc\nWAYBAR_STYLE_PATH=/c/waybar/styles/defaults.css\nWAYBAR_LAYOUT_PATH=/c/waybar/layouts/a.jsonc\n"))
    ∧ (S "OTHER=1WAYBAR_LAYOUT_PATH=/c/waybar/layouts/a.jsonc\nWAYBAR_STYLE_PATH=/c/waybar/styles/defaults.css\n" : Str)
        ≠ S "OTHER=1WAYBAR_LAYOUT_PATH=/c/waybar/layouts/a.jsonc\nWAYBAR_STYLE_PATH=/c/waybar/styles/defaults.css\nWAYBAR_LAYOUT_PATH=/c/waybar/layouts/a.jsonc\n" := by
  decide

/-- Claim C9, counterexample.  A file reachable from two search roots (the
user config home nested below the system root) appears twice in the catalog:
no de-duplication by path equality is performed. -/
theorem c9_counterexample :
    find_layout_files envC9 fsC9
      = [S "/usr/share/waybar/layouts/s/waybar/layouts/x.jsonc",
         S "/usr/share/waybar/layouts/s/waybar/layouts/x.jsonc"]
    ∧ ¬ (find_layout_files envC9 fsC9).Nodup := by
  decide

/-- Claim C10, counterexample.  For the written path
`p = "/c/waybar/layouts/b =1.jsonc"` (a space before the `=`), the value read
back is `"/c/waybar/layouts/b"`: neither `p` itself nor `p` truncated at its
first `=` (which would keep the trailing space) — the reader also strips
whitespace. -/
theorem c10_counterexample :
    (set_layout envT fsC10 (S "/c/waybar/layouts/b =1.jsonc")).toOption.map
      (stateLayoutValue envT)
      = some (some (S "/c/waybar/layouts/b"))
    ∧ (S "/c/waybar/layouts/b =1.jsonc").takeWhile (fun c => c ≠ '=')
        = S "/c/waybar/layouts/b "
    ∧ S "/c/waybar/layouts/b" ≠ S "/c/waybar/layouts/b "
    ∧ S "/c/waybar/layouts/b" ≠ S "/c/waybar/layouts/b =1.jsonc" := by
  decide

/-! ### Order lemmas for the catalog sort -/

/-- `strLe` is total. -/
theorem strLe_total (s t : Str) : strLe s t = true ∨ strLe t s = true := by
  induction s generalizing t with
  | nil => left; rfl
  | cons a as ih =>
    cases t with
    | nil => right; rfl
    | cons b bs =>
      simp only [strLe]
      rcases Nat.lt_trichotomy a.toNat b.toNat with h | h | h
      · left; rw [if_neg (by omega)]; exact decide_eq_true h
      · rw [if_pos h, if_pos h.symm]; exact ih bs
      · right; rw [if_neg (by omega)]; exact decide_eq_true h

/-- `strLe` is transitive. -/
theorem strLe_trans : ∀ (s t u : Str),
    strLe s t = true → strLe t u = true → strLe s u = true
  | [], _, _, _, _ => rfl
  | _ :: _, [], _, h, _ => by simp [strLe] at h
  | _ :: _, _ :: _, [], _, h => by simp [strLe] at h
  | a :: as, b :: bs, c :: cs, h1, h2 => by
    simp only [strLe] at h1 h2 ⊢
    by_cases hab : a.toNat = b.toNat
    · by_cases hbc : b.toNat = c.toNat
      · rw [if_pos (hab.trans hbc)]
        exact strLe_trans as bs cs (by rwa [if_pos hab] at h1) (by rwa [if_pos hbc] at h2)
      · rw [if_neg hbc] at h2
        have hbc2 : b.toNat < c.toNat := of_decide_eq_true h2
        rw [if_neg (by omega)]
        exact decide_eq_true (by omega)
    · rw [if_neg hab] at h1
      have hab2 : a.toNat < b.toNat := of_decide_eq_true h1
      by_cases hbc : b.toNat = c.toNat
      · rw [if_neg (by omega)]; exact decide_eq_true (by omega)
      · rw [if_neg hbc] at h2
        have hbc2 : b.toNat < c.toNat := of_decide_eq_true h2
        rw [if_neg (by omega)]; exact decide_eq_true (by omega)

/-- Membership in an insertion step. -/
theorem mem_insertSorted {x a : Str} : ∀ {l : List Str},
    x ∈ insertSorted a l ↔ x = a ∨ x ∈ l := by
  intro l
  induction l with
  | nil => simp [insertSorted]
  | cons b rest ih =>
    simp only [insertSorted]
    by_cases hab : strLe a b = true
    · rw [if_pos hab]; simp [or_comm, or_assoc, or_left_comm]
    · rw [if_neg hab]
      simp only [List.mem_cons, ih]
      tauto

/-- Insertion preserves sortedness. -/
theorem pairwise_insertSorted (a : Str) : ∀ {l : List Str},
    l.Pairwise (fun x y => strLe x y = true) →
    (insertSorted a l).Pairwise (fun x y => strLe x y = true) := by
  intro l h
  induction l with
  | nil => simp [insertSorted]
  | cons b rest ih =>
    simp only [insertSorted]
    rcases List.pairwise_cons.mp h with ⟨hb, hrest⟩
    by_cases hab : strLe a b = true
    · rw [if_pos hab]
      refine List.pairwise_cons.mpr ⟨?_, h⟩
      intro y hy
      rcases List.mem_cons.mp hy with rfl | hy'
      · exact hab
      · exact strLe_trans a b y hab (hb y hy')
    · rw [if_neg hab]
      have hba : strLe b a = true := (strLe_total a b).resolve_left hab
      refine List.pairwise_cons.mpr ⟨?_, ih hrest⟩
      intro y hy
      rcases mem_insertSorted.mp hy with rfl | hy'
      · exact hba
      · exact hb y hy'

/-- The model of Python `sorted` produces a `strLe`-sorted list. -/
theorem sortStr_sorted : ∀ l : List Str,
    (sortStr l).Pairwise (fun x y => strLe x y = true)
  | [] => List.Pairwise.nil
  | a :: rest => pairwise_insertSorted a (sortStr_sorted rest)

/-! ### Claim C4 (confirmed) and Claim C9 (amended) -/

/-- Claim C4: a target matching no catalog entry by full path or by display
name makes `set_layout` exit with status 1 (`Err.exitOne` models
`sys.exit(1)`), before any file is opened for writing — the filesystem, and
in particular the state file, is untouched (an `Except.error` result carries
the input filesystem unchanged by the conventions of this model). -/
theorem c4_set_layout_not_found (env : Env) (fs : FS) (target : Str)
    (h : ∀ pr ∈ list_layouts env fs, target ≠ pr.layout ∧ target ≠ pr.name) :
    set_layout env fs target = .error .exitOne := by
  have hfind : (list_layouts env fs).find?
      (fun pr => target = pr.layout || target = pr.name) = none := by
    rw [List.find?_eq_none]
    intro pr hpr
    simp only [Bool.or_eq_true, decide_eq_true_eq, not_or]
    exact h pr hpr
  unfold set_layout set_layout_find
  rw [hfind]

/-- Claim C4, witness. -/
theorem c4_witness :
    (∀ pr ∈ list_layouts envT fsC3, S "nonexistent" ≠ pr.layout ∧ S "nonexistent" ≠ pr.name)
    ∧ set_layout envT fsC3 (S "nonexistent") = .error .exitOne := by
  refine ⟨by decide, c4_set_layout_not_found envT fsC3 (S "nonexistent") (by decide)⟩

/-- Claim C9, amended: the catalog is sorted lexicographically by full path
(Python `sorted` on strings), missing directories contribute nothing and an
empty filesystem gives a valid empty catalog without error; however duplicate
paths are NOT removed (see the counterexample). -/
theorem c9_find_layout_files_sorted (env : Env) (fs : FS) :
    (find_layout_files env fs).Pairwise (fun a b => strLe a b = true)
    ∧ find_layout_files env ⟨[]⟩ = [] := by
  exact ⟨sortStr_sorted _, rfl⟩

/-! ### Prefix and suffix lemmas -/

/-- `startsWithL` is the prefix relation. -/
theorem startsWithL_iff : ∀ (s t : Str), startsWithL s t = true ↔ ∃ r, s = t ++ r := by
  intro s t
  induction t generalizing s with
  | nil => simp [startsWithL]
  | cons d ds ih =>
    cases s with
    | nil => simp [startsWithL]
    | cons c cs =>
      simp only [startsWithL, Bool.and_eq_true, decide_eq_true_eq, ih]
      constructor
      · rintro ⟨rfl, r, rfl⟩; exact ⟨r, rfl⟩
      · rintro ⟨r, hr⟩
        injection hr with h1 h2
        exact ⟨h1, r, h2⟩

/-- A prefix of a list is a prefix of any extension. -/
theorem startsWithL_append (s m t : Str) (h : startsWithL s t = true) :
    startsWithL (s ++ m) t = true := by
  rcases (startsWithL_iff s t).mp h with ⟨r, rfl⟩
  exact (startsWithL_iff _ _).mpr ⟨r ++ m, by simp⟩

/-- A suffix of a list is a suffix of any extension. -/
theorem endsWithL_append (a b t : Str) (h : endsWithL b t = true) :
    endsWithL (a ++ b) t = true := by
  unfold endsWithL at *
  rw [List.reverse_append]
  exact startsWithL_append _ _ _ h

/-- If a drop of `f` ends with `t`, so does `f`. -/
theorem endsWithL_of_drop (f t : Str) (n : Nat)
    (h : endsWithL (f.drop n) t = true) : endsWithL f t = true := by
  have := endsWithL_append (f.take n) (f.drop n) t h
  rwa [List.take_append_drop] at this

/-- `fileNameInDir` inverts the path decomposition. -/
theorem fileNameInDir_some (dir p f : Str) (h : fileNameInDir dir p = some f) :
    p = dir ++ S "/" ++ f := by
  unfold fileNameInDir at h
  split at h
  · split at h
    · cases h
    · rename_i hs hc
      injection h with h
      rcases (startsWithL_iff _ _).mp hs with ⟨r, rfl⟩
      have hlen : (dir ++ S "/").length = dir.length + 1 := by simp [S]
      have hdrop : ((dir ++ S "/") ++ r).drop (dir.length + 1) = r := by
        rw [← hlen, List.drop_left]
      rw [hdrop] at h
      rw [← h]
  · cases h

/-- Every glob match ends with `.css`. -/
theorem globNameCss_endsWith (fs : FS) (dir name p : Str)
    (h : p ∈ globNameCss fs dir name) : endsWithL p (S ".css") = true := by
  unfold globNameCss at h
  rcases List.mem_filter.mp h with ⟨_, hp⟩
  cases hf : fileNameInDir dir p with
  | none =>
    rw [hf] at hp
    exact Bool.noConfusion (show false = true from hp)
  | some f =>
    rw [hf] at hp
    have hp2 : (startsWithL f name && endsWithL (f.drop name.length) (S ".css")) = true := hp
    have hend : endsWithL (f.drop name.length) (S ".css") = true := Bool.and_elim_right hp2
    have hfe : endsWithL f (S ".css") = true := endsWithL_of_drop f _ _ hend
    have hdecomp := fileNameInDir_some dir p f hf
    rw [hdecomp]
    exact endsWithL_append _ _ _ hfe

/-- Stripping at `#` is idempotent. -/
theorem takeWhile_idem {α} (p : α → Bool) (l : List α) :
    (l.takeWhile p).takeWhile p = l.takeWhile p := by
  induction l with
  | nil => rfl
  | cons c rest ih =>
    by_cases h : p c = true
    · simp [List.takeWhile_cons, h, ih]
    · simp [List.takeWhile_cons, h]

/-- A successful style-search loop returns a glob match from one of the
directories it visited. -/
theorem resolve_style_loop_mem (fs : FS) : ∀ (name : Str) (dirs : List Str) (p : Str),
    resolve_style_loop fs name dirs = some p →
    ∃ d ∈ dirs, ∃ n, p ∈ globNameCss fs d n := by
  intro name dirs
  induction dirs generalizing name with
  | nil => intro p h; cases h
  | cons d rest ih =>
    intro p h
    unfold resolve_style_loop at h
    cases h1 : globNameCss fs d name with
    | cons q l =>
      rw [h1] at h
      injection h with h
      exact ⟨d, List.mem_cons_self .., name, h ▸ h1 ▸ List.mem_cons_self ..⟩
    | nil =>
      rw [h1] at h
      simp only at h
      cases h2 : globNameCss fs d (name.takeWhile (fun c => c ≠ '#')) with
      | cons q l =>
        rw [h2] at h
        injection h with h
        exact ⟨d, List.mem_cons_self .., name.takeWhile (fun c => c ≠ '#'),
          h ▸ h2 ▸ List.mem_cons_self ..⟩
      | nil =>
        rw [h2] at h
        rcases ih _ p h with ⟨d2, hd2, n, hn⟩
        exact ⟨d2, List.mem_cons_of_mem _ hd2, n, hn⟩

/-- When no directory matches the full name nor the stripped base name, the
search loop fails. -/
theorem resolve_style_loop_none (fs : FS) : ∀ (name : Str) (dirs : List Str),
    (∀ d ∈ dirs, globNameCss fs d name = []
      ∧ globNameCss fs d (name.takeWhile (fun c => c ≠ '#')) = []) →
    resolve_style_loop fs name dirs = none := by
  intro name dirs
  induction dirs generalizing name with
  | nil => intro _; rfl
  | cons d rest ih =>
    intro h
    obtain ⟨h1, h2⟩ := h d (List.mem_cons_self ..)
    unfold resolve_style_loop
    rw [h1, h2]
    refine ih _ ?_
    intro d2 hd2
    obtain ⟨_, hb⟩ := h d2 (List.mem_cons_of_mem _ hd2)
    refine ⟨hb, ?_⟩
    rw [takeWhile_idem]
    exact hb

/-! ### Claim C1 (amended), C5 (amended), C6 (amended), C7 (confirmed) -/

/-- Claim C1, amended: the search interleaves the two passes per directory —
within the first (highest-precedence) style directory, when the full-name
glob is empty but the stripped base-name glob matches, that base-name match
is returned, regardless of any full-name match in lower-precedence
directories. -/
theorem c1_per_directory_interleaved (env : Env) (fs : FS) (lp p : Str) (rest : List Str)
    (h1 : globNameCss fs (env.xdgConfigHome ++ S "/waybar/styles")
        (replaceDotJsonc (basenameOf lp)) = [])
    (h2 : globNameCss fs (env.xdgConfigHome ++ S "/waybar/styles")
        ((replaceDotJsonc (basenameOf lp)).takeWhile (fun c => c ≠ '#')) = p :: rest) :
    resolve_style_path env fs lp = p := by
  unfold resolve_style_path STYLE_DIRS
  simp only [resolve_style_loop, h1, h2]

/-- Claim C1, witness for the amended theorem. -/
theorem c1_witness :
    globNameCss fsC1 (envT.xdgConfigHome ++ S "/waybar/styles")
      ((replaceDotJsonc (basenameOf (S "/l/bar#compact.jsonc"))).takeWhile (fun c => c ≠ '#'))
      = [S "/c/waybar/styles/bar.css"]
    ∧ resolve_style_path envT fsC1 (S "/l/bar#compact.jsonc") = S "/c/waybar/styles/bar.css" :=
  ⟨by decide, c1_per_directory_interleaved envT fsC1 (S "/l/bar#compact.jsonc")
    (S "/c/waybar/styles/bar.css") [] (by decide) (by decide)⟩

/-- Claim C5, amended: the state-file read in `handle_layout_navigation` is
an unguarded `open(...)`, so a merely-missing state file raises
`FileNotFoundError` (aborting with non-zero status); the read fails soft only
in the weaker sense that a file that exists but carries no
`WAYBAR_LAYOUT_PATH` line makes navigation return normally with no mutation. -/
theorem c5_read_raises_when_missing (env : Env) (fs : FS) (opt : NavOpt) :
    (fsExists fs (state_file env) = false →
      handle_layout_navigation env fs opt = .error (.fileNotFound (state_file env)))
    ∧ (∀ st, FS.lookup fs (state_file env) = some st →
        findCurrentLayout (splitLines st) = none →
        handle_layout_navigation env fs opt = .ok fs) := by
  constructor
  · intro h
    have hl : FS.lookup fs (state_file env) = none := by
      unfold fsExists at h
      exact Option.not_isSome_iff_eq_none.mp (by simp [h])
    unfold handle_layout_navigation
    rw [show readFile fs (state_file env) = .error (.fileNotFound (state_file env)) by
      simp [readFile, hl]]
  · intro st hst hfind
    have hread : readFile fs (state_file env) = .ok st := by simp [readFile, hst]
    unfold handle_layout_navigation
    split
    · rename_i e heq
      rw [hread] at heq
      cases heq
    · rename_i st2 heq
      rw [hread] at heq
      injection heq with heq
      subst heq
      unfold nav_after_read
      rw [hfind]

/-- Claim C5, witness: a missing state file aborts; an existing state file
without the managed key returns normally. -/
theorem c5_witness :
    handle_layout_navigation envT fsC5 .next = .error (.fileNotFound (state_file envT))
    ∧ handle_layout_navigation envT ⟨[(S "/s/staterc", S "FOO=1\n")]⟩ .next
        = .ok ⟨[(S "/s/staterc", S "FOO=1\n")]⟩ :=
  ⟨(c5_read_raises_when_missing envT fsC5 .next).1 (by decide),
   (c5_read_raises_when_missing envT ⟨[(S "/s/staterc", S "FOO=1\n")]⟩ .next).2
     (S "FOO=1\n") (by decide) (by decide)⟩

/-- Claim C6, amended: navigation over an empty catalog never mutates the
filesystem — every successful outcome returns it unchanged (the source logs
an error and returns normally, with exit status 0 and no distinct
`EmptyCatalog` error; see the counterexample). -/
theorem c6_empty_catalog_no_mutation (env : Env) (fs : FS) (opt : NavOpt) (fs2 : FS)
    (hempty : find_layout_files env fs = [])
    (hok : handle_layout_navigation env fs opt = .ok fs2) :
    fs2 = fs := by
  unfold handle_layout_navigation at hok
  split at hok
  · exact Except.noConfusion hok
  · unfold nav_after_read at hok
    split at hok
    · exact (Except.ok.inj hok).symm
    · split at hok
      · exact (Except.ok.inj hok).symm
      · rw [hempty] at hok
        split at hok
        · exact Except.noConfusion hok
        · exact (Except.ok.inj hok).symm
        · rename_i cur heq
          unfold nav_with_current at hok
          rw [hempty] at hok
          exact Except.noConfusion
            (show Except.error Err.valueError = Except.ok fs2 from hok)

/-- Claim C6, witness for the amended theorem. -/
theorem c6_witness : fsC6 = fsC6 :=
  c6_empty_catalog_no_mutation envT fsC6 .next fsC6 (by decide) (by decide)

/-- Claim C7: `resolve_style_path` is total — it always returns a `.css`
path — and when no name-based glob matches in any style directory it returns
the first existing `defaults.css` in precedence order, or, when no directory
has one, the (non-existent) `defaults.css` sentinel under the first style
directory. -/
theorem c7_resolver_total (env : Env) (fs : FS) (lp : Str) :
    endsWithL (resolve_style_path env fs lp) (S ".css") = true
    ∧ ((∀ d ∈ STYLE_DIRS env,
          globNameCss fs d (replaceDotJsonc (basenameOf lp)) = []
          ∧ globNameCss fs d
              ((replaceDotJsonc (basenameOf lp)).takeWhile (fun c => c ≠ '#')) = []) →
        match (STYLE_DIRS env).find? (fun d => fsExists fs (d ++ S "/defaults.css")) with
        | some d => resolve_style_path env fs lp = d ++ S "/defaults.css"
            ∧ fsExists fs (resolve_style_path env fs lp) = true
        | none => resolve_style_path env fs lp = ((STYLE_DIRS env).headD []) ++ S "/defaults.css"
            ∧ fsExists fs (resolve_style_path env fs lp) = false) := by
  constructor
  · unfold resolve_style_path
    split
    · rename_i p hloop
      rcases resolve_style_loop_mem fs _ _ p hloop with ⟨d, _, n, hmem⟩
      exact globNameCss_endsWith fs d n p hmem
    · split
      · exact endsWithL_append _ (S "/defaults.css") (S ".css") (by decide)
      · exact endsWithL_append _ (S "/defaults.css") (S ".css") (by decide)
  · intro h
    have hloop : resolve_style_loop fs (replaceDotJsonc (basenameOf lp)) (STYLE_DIRS env) = none :=
      resolve_style_loop_none fs _ _ h
    cases hfind : (STYLE_DIRS env).find? (fun d => fsExists fs (d ++ S "/defaults.css")) with
    | some d =>
      have hpd : fsExists fs (d ++ S "/defaults.css") = true := by
        simpa using List.find?_some hfind
      have heq : resolve_style_path env fs lp = d ++ S "/defaults.css" := by
        unfold resolve_style_path
        rw [hloop, hfind]
      exact ⟨heq, by rw [heq]; exact hpd⟩
    | none =>
      have heq : resolve_style_path env fs lp = ((STYLE_DIRS env).headD []) ++ S "/defaults.css" := by
        unfold resolve_style_path
        rw [hloop, hfind]
      refine ⟨heq, ?_⟩
      rw [heq]
      have hall := List.find?_eq_none.mp hfind
      have hmem : ((STYLE_DIRS env).headD []) ∈ STYLE_DIRS env := by
        unfold STYLE_DIRS
        simp
      have hne := hall _ hmem
      simpa using hne

/-- Claim C7, witness: with an empty filesystem nothing matches and no
defaults file exists, so the sentinel under the first style directory is
returned, a `.css` path that does not exist. -/
theorem c7_witness :
    endsWithL (resolve_style_path envT ⟨[]⟩ (S "/l/bar.jsonc")) (S ".css") = true
    ∧ resolve_style_path envT ⟨[]⟩ (S "/l/bar.jsonc") = S "/c/waybar/styles/defaults.css"
    ∧ fsExists ⟨[]⟩ (resolve_style_path envT ⟨[]⟩ (S "/l/bar.jsonc")) = false := by
  have h2 := (c7_resolver_total envT ⟨[]⟩ (S "/l/bar.jsonc")).2 (by decide)
  rw [show ((STYLE_DIRS envT).find?
      (fun d => fsExists (⟨[]⟩ : FS) (d ++ S "/defaults.css"))) = none from rfl] at h2
  exact ⟨(c7_resolver_total envT ⟨[]⟩ (S "/l/bar.jsonc")).1, h2.1, h2.2⟩

/-! ### Key-prefix lemmas -/

/-- Every list is a prefix of itself. -/
theorem startsWithL_self (s : Str) : startsWithL s s = true :=
  (startsWithL_iff s s).mpr ⟨[], by simp⟩

/-- A key is a prefix of the key followed by anything. -/
theorem startsWithL_key_append (k x : Str) : startsWithL (k ++ x) k = true :=
  startsWithL_append k x k (startsWithL_self k)

/-- Cancelling a common prefix on both sides of `startsWithL`. -/
theorem startsWithL_cancel : ∀ (c y z : Str),
    startsWithL (c ++ y) (c ++ z) = startsWithL y z := by
  intro c y z
  induction c with
  | nil => rfl
  | cons a as ih =>
    show (decide (a = a) && startsWithL (as ++ y) (as ++ z)) = startsWithL y z
    rw [decide_eq_true (Eq.refl a), Bool.true_and, ih]

/-- A style-key line never starts with the layout key: the two keys differ
at their eighth character. -/
theorem sw_style_layout (x : Str) : startsWithL (styleKey ++ x) layoutKey = false := by
  have h1 : styleKey = S "WAYBAR_" ++ ('S' :: S "TYLE_PATH=") := by decide
  have h2 : layoutKey = S "WAYBAR_" ++ ('L' :: S "AYOUT_PATH=") := by decide
  rw [h1, h2, List.append_assoc, startsWithL_cancel]
  rfl

/-! ### `splitOnChar` lemmas -/

/-- Python `split` always returns at least one field. -/
theorem splitOnChar_ne_nil (sep : Char) : ∀ s : Str, splitOnChar sep s ≠ [] := by
  intro s
  induction s with
  | nil => simp [splitOnChar]
  | cons c rest ih =>
    unfold splitOnChar
    split
    · simp
    · split
      · simp
      · simp

/-- Step equation for a leading separator. -/
theorem splitOnChar_cons_sep (sep : Char) (x : Str) :
    splitOnChar sep (sep :: x) = [] :: splitOnChar sep x := by
  conv_lhs => unfold splitOnChar
  rw [if_pos rfl]

/-- Step equation for a leading non-separator. -/
theorem splitOnChar_cons_ne (sep c : Char) (x : Str) (h : c ≠ sep) (f : Str)
    (fs : List Str) (hs : splitOnChar sep x = f :: fs) :
    splitOnChar sep (c :: x) = (c :: f) :: fs := by
  conv_lhs => unfold splitOnChar
  rw [if_neg h, hs]

/-- The first field of a split is the leading separator-free segment. -/
theorem splitOnChar_head (sep : Char) : ∀ s : Str,
    (splitOnChar sep s).getD 0 [] = s.takeWhile (fun c => c ≠ sep) := by
  intro s
  induction s with
  | nil => rfl
  | cons c rest ih =>
    by_cases h : c = sep
    · subst h
      rw [splitOnChar_cons_sep]
      simp [List.takeWhile_cons]
    · cases hs : splitOnChar sep rest with
      | nil => exact absurd hs (splitOnChar_ne_nil sep rest)
      | cons f fs =>
        rw [splitOnChar_cons_ne sep c rest h f fs hs]
        show c :: f = (c :: rest).takeWhile (fun c2 => c2 ≠ sep)
        rw [List.takeWhile_cons, if_pos (decide_eq_true h), ← ih, hs]
        rfl

/-- Splitting a separator-free prefix followed by the separator yields the
prefix as first field. -/
theorem splitOnChar_keyline (sep : Char) : ∀ (pre x : Str), (∀ c ∈ pre, c ≠ sep) →
    splitOnChar sep (pre ++ sep :: x) = pre :: splitOnChar sep x := by
  intro pre
  induction pre with
  | nil =>
    intro x _
    exact splitOnChar_cons_sep sep x
  | cons c pre ih =>
    intro x h
    have hc : c ≠ sep := h c (List.mem_cons_self ..)
    show splitOnChar sep (c :: (pre ++ sep :: x)) = (c :: pre) :: splitOnChar sep x
    exact splitOnChar_cons_ne sep c _ hc pre (splitOnChar sep x)
      (ih x (fun d hd => h d (List.mem_cons_of_mem _ hd)))

/-- The second field of a managed layout line: the written value up to its
first `=`, with the trailing newline retained when no `=` occurs. -/
theorem getD1_keyline (lp : Str) :
    (splitOnChar '=' (layoutKey ++ lp ++ ['\n'])).getD 1 []
      = (lp ++ ['\n']).takeWhile (fun c => c ≠ '=') := by
  have hk : layoutKey ++ lp ++ ['\n'] = (S "WAYBAR_LAYOUT_PATH") ++ '=' :: (lp ++ ['\n']) := by
    have h1 : layoutKey = S "WAYBAR_LAYOUT_PATH" ++ ['='] := by decide
    rw [h1]
    simp [List.append_assoc]
  rw [hk, splitOnChar_keyline '=' _ _ (by decide)]
  show (splitOnChar '=' (lp ++ ['\n'])).getD 0 [] = _
  rw [splitOnChar_head]

/-! ### `splitLines` lemmas -/

/-- Step equation for `splitLines` when the tail splits to nothing. -/
theorem splitLines_cons_nil (c : Char) (s : Str) (h : splitLines s = []) :
    splitLines (c :: s) = [[c]] := by
  unfold splitLines
  rw [h]

/-- Step equation for `splitLines` when the tail splits to at least one
line. -/
theorem splitLines_cons_of (c : Char) (s l : Str) (ls : List Str)
    (h : splitLines s = l :: ls) :
    splitLines (c :: s) = if c = '\n' then [c] :: l :: ls else (c :: l) :: ls := by
  unfold splitLines
  rw [h]

/-- A leading newline is its own line. -/
theorem splitLines_nl_cons (rest : Str) :
    splitLines ('\n' :: rest) = ['\n'] :: splitLines rest := by
  cases h : splitLines rest with
  | nil => rw [splitLines_cons_nil '\n' rest h]
  | cons l ls => rw [splitLines_cons_of '\n' rest l ls h, if_pos rfl]

/-- A newline-terminated segment peels off as one line. -/
theorem splitLines_append_nl : ∀ (b rest : Str), '\n' ∉ b →
    splitLines (b ++ '\n' :: rest) = (b ++ ['\n']) :: splitLines rest := by
  intro b
  induction b with
  | nil => intro rest _; exact splitLines_nl_cons rest
  | cons c b ih =>
    intro rest hb
    have hc : c ≠ '\n' := fun h => hb (h ▸ List.mem_cons_self ..)
    have hb2 : '\n' ∉ b := fun h => hb (List.mem_cons_of_mem _ h)
    show splitLines (c :: (b ++ '\n' :: rest)) = ((c :: b) ++ ['\n']) :: splitLines rest
    rw [splitLines_cons_of c _ _ _ (ih rest hb2), if_neg hc]
    rfl

/-- A nonempty newline-free content is a single bare line. -/
theorem splitLines_bare : ∀ b : Str, '\n' ∉ b → b ≠ [] → splitLines b = [b] := by
  intro b
  induction b with
  | nil => intro _ h; exact absurd rfl h
  | cons c b ih =>
    intro hb _
    have hc : c ≠ '\n' := fun h => hb (h ▸ List.mem_cons_self ..)
    have hb2 : '\n' ∉ b := fun h => hb (List.mem_cons_of_mem _ h)
    by_cases h0 : b = []
    · subst h0; rfl
    · rw [splitLines_cons_of c b b [] (ih hb2 h0), if_neg hc]

/-- `splitLines` inverts concatenation on well-formed line lists. -/
theorem splitLines_flatten : ∀ L : List Str, WfLines L → splitLines L.flatten = L := by
  intro L
  induction L with
  | nil => intro _; rfl
  | cons l rest ih =>
    intro hwf
    cases rest with
    | nil =>
      rw [List.flatten_cons, List.flatten_nil, List.append_nil]
      rcases hwf with ⟨b, hb, hlb⟩ | ⟨b, hb, hne, hlb⟩
      · rw [hlb]; exact splitLines_append_nl b [] hb
      · rw [hlb]; exact splitLines_bare b hb hne
    | cons l2 rest2 =>
      obtain ⟨⟨b, hb, rfl⟩, hwf2⟩ := hwf
      rw [List.flatten_cons, List.append_assoc, List.singleton_append,
        splitLines_append_nl b _ hb, ih hwf2]

/-- Every `splitLines` output is well-formed. -/
theorem wfLines_splitLines : ∀ s : Str, WfLines (splitLines s) := by
  intro s
  induction s with
  | nil => trivial
  | cons c rest ih =>
    cases h : splitLines rest with
    | nil =>
      rw [splitLines_cons_nil c rest h]
      by_cases hc : c = '\n'
      · subst hc; exact Or.inl ⟨[], by simp, rfl⟩
      · refine Or.inr ⟨[c], ?_, by simp, rfl⟩
        intro hm
        rcases List.mem_cons.mp hm with h2 | h2
        · exact hc h2.symm
        · cases h2
    | cons l ls =>
      rw [h] at ih
      by_cases hc : c = '\n'
      · subst hc
        rw [splitLines_cons_of '\n' rest l ls h, if_pos rfl]
        cases ls with
        | nil => exact ⟨⟨[], by simp, rfl⟩, ih⟩
        | cons l2 ls2 => exact ⟨⟨[], by simp, rfl⟩, ih⟩
      · rw [splitLines_cons_of c rest l ls h, if_neg hc]
        cases ls with
        | nil =>
          rcases ih with ⟨b, hb, hlb⟩ | ⟨b, hb, hne, hlb⟩
          · refine Or.inl ⟨c :: b, ?_, by rw [hlb, List.cons_append]⟩
            intro hm
            rcases List.mem_cons.mp hm with h2 | h2
            · exact hc h2.symm
            · exact hb h2
          · refine Or.inr ⟨c :: b, ?_, by simp, by rw [hlb]⟩
            intro hm
            rcases List.mem_cons.mp hm with h2 | h2
            · exact hc h2.symm
            · exact hb h2
        | cons l2 ls2 =>
          obtain ⟨⟨b, hb, hlb⟩, hwf2⟩ := ih
          refine ⟨⟨c :: b, ?_, by rw [hlb, List.cons_append]⟩, hwf2⟩
          intro hm
          rcases List.mem_cons.mp hm with h2 | h2
          · exact hc h2.symm
          · exact hb h2

/-! ### Rewritten state content: shape and reader lemmas -/

/-- A key-value-newline concatenation contains no interior newline when the
value is newline-free. -/
theorem not_nl_append (k v : Str) (hk : '\n' ∉ k) (hv : '\n' ∉ v) : '\n' ∉ k ++ v :=
  fun hm => (List.mem_append.mp hm).elim hk hv

/-- `rewriteLine` maps a newline-terminated line to a newline-terminated
line (when the substituted values are newline-free). -/
theorem rewriteLine_isNlLine (lp sp : Str) (hlp : '\n' ∉ lp) (hsp : '\n' ∉ sp)
    (l : Str) (h : isNlLine l) : isNlLine (rewriteLine lp sp l) := by
  unfold rewriteLine
  split
  · exact ⟨layoutKey ++ lp, not_nl_append _ _ (by decide) hlp, rfl⟩
  · split
    · exact ⟨styleKey ++ sp, not_nl_append _ _ (by decide) hsp, rfl⟩
    · exact h

/-- `rewriteLine` preserves the last-line shape invariant. -/
theorem rewriteLine_shape (lp sp : Str) (hlp : '\n' ∉ lp) (hsp : '\n' ∉ sp)
    (l : Str) (h : isNlLine l ∨ isBareLine l) :
    isNlLine (rewriteLine lp sp l) ∨ isBareLine (rewriteLine lp sp l) := by
  unfold rewriteLine
  split
  · exact Or.inl ⟨layoutKey ++ lp, not_nl_append _ _ (by decide) hlp, rfl⟩
  · split
    · exact Or.inl ⟨styleKey ++ sp, not_nl_append _ _ (by decide) hsp, rfl⟩
    · exact h

/-- Rewriting every line preserves well-formedness. -/
theorem wfLines_map (lp sp : Str) (hlp : '\n' ∉ lp) (hsp : '\n' ∉ sp) :
    ∀ L, WfLines L → WfLines (L.map (rewriteLine lp sp)) := by
  intro L
  induction L with
  | nil => intro _; trivial
  | cons l rest ih =>
    intro hwf
    cases rest with
    | nil => exact rewriteLine_shape lp sp hlp hsp l hwf
    | cons l2 rest2 =>
      obtain ⟨hnl, hwf2⟩ := hwf
      exact ⟨rewriteLine_isNlLine lp sp hlp hsp l hnl, ih hwf2⟩

/-- Step equation of the reader on a managed line. -/
theorem findCurrentLayout_cons_pos (l : Str) (rest : List Str)
    (h : startsWithL l layoutKey = true) :
    findCurrentLayout (l :: rest) = some (stripL ((splitOnChar '=' l).getD 1 [])) := by
  conv_lhs => unfold findCurrentLayout
  rw [if_pos h]

/-- Step equation of the reader on a foreign line. -/
theorem findCurrentLayout_cons_neg (l : Str) (rest : List Str)
    (h : startsWithL l layoutKey = false) :
    findCurrentLayout (l :: rest) = findCurrentLayout rest := by
  conv_lhs => unfold findCurrentLayout
  rw [if_neg (by simp [h])]

/-- The reader applied to the rewritten line list: whenever the original
lines carried a `WAYBAR_LAYOUT_PATH=` line, the rewritten lines yield the
freshly written value — the written path up to its first `=`, whitespace
stripped. -/
theorem findCurrentLayout_map (lp sp : Str) : ∀ L : List Str,
    (findCurrentLayout L).isSome = true →
    findCurrentLayout (L.map (rewriteLine lp sp))
      = some (stripL ((lp ++ ['\n']).takeWhile (fun c => c ≠ '='))) := by
  intro L
  induction L with
  | nil => intro h; exact absurd h (by simp [findCurrentLayout])
  | cons l rest ih =>
    intro h
    by_cases hl : startsWithL l layoutKey = true
    · have hrw : rewriteLine lp sp l = layoutKey ++ lp ++ ['\n'] := by
        unfold rewriteLine
        rw [if_pos hl]
      have hsw : startsWithL (layoutKey ++ lp ++ ['\n']) layoutKey = true := by
        have h2 := startsWithL_key_append layoutKey (lp ++ ['\n'])
        rwa [← List.append_assoc] at h2
      show findCurrentLayout (rewriteLine lp sp l :: rest.map (rewriteLine lp sp)) = _
      rw [hrw, findCurrentLayout_cons_pos _ _ hsw, getD1_keyline]
    · have hl2 : startsWithL l layoutKey = false := by
        cases hb : startsWithL l layoutKey
        · rfl
        · exact absurd hb hl
      have hmap : startsWithL (rewriteLine lp sp l) layoutKey = false := by
        unfold rewriteLine
        rw [if_neg hl]
        split
        · rw [List.append_assoc]
          exact sw_style_layout (sp ++ ['\n'])
        · exact hl2
      have hrest : (findCurrentLayout rest).isSome = true := by
        rwa [findCurrentLayout_cons_neg l rest hl2] at h
      show findCurrentLayout (rewriteLine lp sp l :: rest.map (rewriteLine lp sp)) = _
      rw [findCurrentLayout_cons_neg _ _ hmap]
      exact ih hrest

/-- The reader applied to the rewritten state-file content. -/
theorem rewrite_reader (lp sp st : Str) (hlp : '\n' ∉ lp) (hsp : '\n' ∉ sp)
    (h : (findCurrentLayout (splitLines st)).isSome = true) :
    findCurrentLayout (splitLines (rewriteStateContent lp sp st))
      = some (stripL ((lp ++ ['\n']).takeWhile (fun c => c ≠ '='))) := by
  unfold rewriteStateContent
  rw [splitLines_flatten _ (wfLines_map lp sp hlp hsp _ (wfLines_splitLines st))]
  exact findCurrentLayout_map lp sp _ h

/-! ### Strip lemmas -/

/-- Stripping ignores a trailing newline. -/
theorem stripL_append_nl (x : Str) : stripL (x ++ ['\n']) = stripL x := by
  unfold stripL
  rw [List.dropWhile_append]
  by_cases h : (x.dropWhile isPySpace).isEmpty = true
  · rw [if_pos h]
    have h3 : x.dropWhile isPySpace = [] := by
      cases hx : x.dropWhile isPySpace
      · rfl
      · rw [hx] at h
        exact absurd h (by simp)
    have h2 : List.dropWhile isPySpace ['\n'] = [] := by decide
    rw [h2, h3]
  · rw [if_neg h]
    rw [List.reverse_append, List.reverse_singleton, List.singleton_append,
      List.dropWhile_cons, if_pos (by decide : isPySpace '\n' = true)]

/-- A clean value round-trips through the reader extraction: when the
written path contains no `=` and is strip-invariant, the extracted value is
the path itself. -/
theorem clean_value (lp : Str) (heq : '=' ∉ lp) (hstrip : stripL lp = lp) :
    stripL ((lp ++ ['\n']).takeWhile (fun c => c ≠ '=')) = lp := by
  have ht : (lp ++ ['\n']).takeWhile (fun c => c ≠ '=') = lp ++ ['\n'] := by
    apply List.takeWhile_eq_self_iff.mpr
    intro c hc
    rcases List.mem_append.mp hc with h | h
    · exact decide_eq_true (fun hce => heq (hce ▸ h))
    · have hcn : c = '\n' := by simpa using h
      subst hcn
      decide
  rw [ht, stripL_append_nl, hstrip]

/-! ### Filesystem write/lookup lemmas -/

/-- Writing a file makes it the first entry found for its path. -/
theorem find?_replaceEntry_same : ∀ (l : List (Str × Str)) (p c : Str),
    (replaceEntry l p c).find? (fun e => e.1 = p) = some (p, c) := by
  intro l p c
  induction l with
  | nil => simp [replaceEntry, List.find?]
  | cons e rest ih =>
    unfold replaceEntry
    by_cases h : e.1 = p
    · rw [if_pos h]
      simp [List.find?]
    · rw [if_neg h]
      rw [List.find?_cons_of_neg _ (by simp [h])]
      exact ih

/-- Reading back a just-written file returns the written content. -/
theorem lookup_writeFile_same (fs : FS) (p c : Str) :
    FS.lookup (writeFile fs p c) p = some c := by
  unfold FS.lookup writeFile
  rw [find?_replaceEntry_same]
  rfl

/-- Writing one path leaves every other path and its content untouched. -/
theorem find?_replaceEntry_other : ∀ (l : List (Str × Str)) (p q c : Str), p ≠ q →
    (replaceEntry l q c).find? (fun e => e.1 = p) = l.find? (fun e => e.1 = p) := by
  intro l p q c hpq
  induction l with
  | nil => simp [replaceEntry, List.find?, Ne.symm hpq]
  | cons e rest ih =>
    unfold replaceEntry
    by_cases h : e.1 = q
    · rw [if_pos h]
      rw [List.find?_cons_of_neg _ (by simp [Ne.symm hpq]),
        List.find?_cons_of_neg _ (by simp [h, Ne.symm hpq])]
    · rw [if_neg h]
      by_cases hp : e.1 = p
      · rw [List.find?_cons_of_pos _ (by simp [hp]), List.find?_cons_of_pos _ (by simp [hp])]
      · rw [List.find?_cons_of_neg _ (by simp [hp]), List.find?_cons_of_neg _ (by simp [hp])]
        exact ih

/-- Lookup through a write to a different path. -/
theorem lookup_writeFile_other (fs : FS) (p q c : Str) (h : p ≠ q) :
    FS.lookup (writeFile fs q c) p = FS.lookup fs p := by
  unfold FS.lookup writeFile
  rw [find?_replaceEntry_other _ _ _ _ h]

/-! ### Path-disequality lemmas -/

/-- Equal-length suffixes of equal concatenations agree. -/
theorem append_inj_suffix (a b s t : Str) (hlen : s.length = t.length)
    (h : a ++ s = b ++ t) : s = t := by
  have h2 := congrArg List.reverse h
  rw [List.reverse_append, List.reverse_append] at h2
  have h3 := congrArg (List.take s.reverse.length) h2
  rw [List.take_left] at h3
  rw [show s.reverse.length = t.reverse.length by simp [hlen]] at h3
  rw [List.take_left] at h3
  exact List.reverse_injective h3

/-- The state file is never the installed `config.jsonc`. -/
theorem state_ne_config (env : Env) : state_file env ≠ config_filepath env := by
  intro h
  unfold state_file config_filepath at h
  rw [show (S "/staterc") = S "/" ++ S "staterc" by decide,
    show (S "/waybar/config.jsonc") = S "/waybar/confi" ++ S "g.jsonc" by decide,
    ← List.append_assoc, ← List.append_assoc] at h
  exact absurd (append_inj_suffix _ _ _ _ (by decide) h) (by decide)

/-- The state file is never the installed `style.css`. -/
theorem state_ne_style (env : Env) : state_file env ≠ style_filepath env := by
  intro h
  unfold state_file style_filepath at h
  rw [show (S "/staterc") = S "/" ++ S "staterc" by decide,
    show (S "/waybar/style.css") = S "/waybar/st" ++ S "yle.css" by decide,
    ← List.append_assoc, ← List.append_assoc] at h
  exact absurd (append_inj_suffix _ _ _ _ (by decide) h) (by decide)

/-- The empty list is a prefix of everything. -/
theorem startsWithL_nil (s : Str) : startsWithL s [] = true := by
  cases s <;> rfl

/-- A prefix longer than the probe fixes the `startsWithL` outcome. -/
theorem startsWithL_bounded : ∀ (t b a : Str), t.length ≤ b.length →
    startsWithL (b ++ a) t = startsWithL b t := by
  intro t
  induction t with
  | nil =>
    intro b a _
    rw [startsWithL_nil, startsWithL_nil]
  | cons d ds ih =>
    intro b a hle
    cases b with
    | nil => exact absurd hle (by simp)
    | cons c cs =>
      show (decide (c = d) && startsWithL (cs ++ a) ds) = (decide (c = d) && startsWithL cs ds)
      rw [ih cs a (by simpa using hle)]

/-- A suffix shorter than the appended tail tests only the tail. -/
theorem endsWithL_append_right (a b t : Str) (hle : t.length ≤ b.length) :
    endsWithL (a ++ b) t = endsWithL b t := by
  unfold endsWithL
  rw [List.reverse_append]
  exact startsWithL_bounded t.reverse b.reverse a.reverse (by simpa using hle)

/-- The state file never carries the layout extension. -/
theorem state_not_jsonc (env : Env) : endsWithL (state_file env) (S ".jsonc") = false := by
  unfold state_file
  rw [endsWithL_append_right env.hydeStateHome (S "/staterc") (S ".jsonc") (by decide)]
  decide

/-- The installed style never carries the layout extension. -/
theorem style_not_jsonc (env : Env) : endsWithL (style_filepath env) (S ".jsonc") = false := by
  unfold style_filepath
  rw [endsWithL_append_right env.xdgConfigHome (S "/waybar/style.css") (S ".jsonc") (by decide)]
  decide

/-- A layout file is never the state file. -/
theorem jsonc_ne_state (env : Env) (lp : Str) (h : endsWithL lp (S ".jsonc") = true) :
    lp ≠ state_file env := by
  intro he
  rw [he, state_not_jsonc env] at h
  exact Bool.noConfusion h

/-! ### `set_layout` characterization -/

/-- A layout-key line never starts with the style key. -/
theorem sw_layout_style (x : Str) : startsWithL (layoutKey ++ x) styleKey = false := by
  have h1 : layoutKey = S "WAYBAR_" ++ ('L' :: S "AYOUT_PATH=") := by decide
  have h2 : styleKey = S "WAYBAR_" ++ ('S' :: S "TYLE_PATH=") := by decide
  rw [h1, h2, List.append_assoc, startsWithL_cancel]
  rfl

/-- Decomposition of a successful `set_layout`: the resolved pair fixes the
style, the state file is rewritten in place, the layout is copied over
`config.jsonc`, and the generated wrapper is written to `style.css`. -/
theorem set_layout_ok_eq (env : Env) (fs : FS) (target lp st : Str) (fs2 : FS)
    (hfind : set_layout_find (list_layouts env fs) target = some lp)
    (hst : FS.lookup fs (state_file env) = some st)
    (hok : set_layout env fs target = .ok fs2) :
    ∃ lc, FS.lookup (writeFile fs (state_file env)
        (rewriteStateContent lp (resolve_style_path env fs lp) st)) lp = some lc
      ∧ fs2 = writeFile
          (writeFile (writeFile fs (state_file env)
              (rewriteStateContent lp (resolve_style_path env fs lp) st))
            (config_filepath env) lc)
          (style_filepath env)
          (write_style_file_content env
            (writeFile (writeFile fs (state_file env)
                (rewriteStateContent lp (resolve_style_path env fs lp) st))
              (config_filepath env) lc)
            (resolve_style_path env fs lp)) := by
  unfold set_layout at hok
  split at hok
  · rename_i heq
    rw [hfind] at heq
    cases heq
  · rename_i lp2 heq
    have hlp2 : lp = lp2 := Option.some.inj (hfind.symm.trans heq)
    subst hlp2
    split at hok
    · exact Except.noConfusion hok
    · split at hok
      · rename_i e heq2
        rw [show readFile fs (state_file env) = Except.ok st from by simp [readFile, hst]] at heq2
        cases heq2
      · rename_i st2 heq2
        rw [show readFile fs (state_file env) = Except.ok st from by simp [readFile, hst]] at heq2
        have hst2 : st = st2 := Except.ok.inj heq2
        subst hst2
        split at hok
        · exact Except.noConfusion hok
        · rename_i lc heq3
          have hlc : FS.lookup (writeFile fs (state_file env)
              (rewriteStateContent lp (resolve_style_path env fs lp) st)) lp = some lc := by
            unfold readFile at heq3
            cases hl : FS.lookup (writeFile fs (state_file env)
                (rewriteStateContent lp (resolve_style_path env fs lp) st)) lp with
            | none =>
              rw [hl] at heq3
              exact Except.noConfusion heq3
            | some c =>
              rw [hl] at heq3
              have h4 : (Except.ok c : Except Err Str) = Except.ok lc := heq3
              rw [← Except.ok.inj h4]
          exact ⟨lc, hlc, (Except.ok.inj hok).symm⟩

/-- After a successful `set_layout`, the state file holds exactly the
rewritten content. -/
theorem set_layout_ok_state (env : Env) (fs : FS) (target lp st : Str) (fs2 : FS)
    (hfind : set_layout_find (list_layouts env fs) target = some lp)
    (hst : FS.lookup fs (state_file env) = some st)
    (hok : set_layout env fs target = .ok fs2) :
    FS.lookup fs2 (state_file env)
      = some (rewriteStateContent lp (resolve_style_path env fs lp) st) := by
  obtain ⟨lc, hlc, rfl⟩ := set_layout_ok_eq env fs target lp st fs2 hfind hst hok
  rw [lookup_writeFile_other _ _ _ _ (state_ne_style env),
    lookup_writeFile_other _ _ _ _ (state_ne_config env),
    lookup_writeFile_same]

/-- Rewriting lines does not create, delete, reorder or alter any line that
belongs to a foreign key. -/
theorem filter_unmanaged_map (lp sp : Str) : ∀ L : List Str,
    (L.map (rewriteLine lp sp)).filter (fun l => !(isManagedLine l))
      = L.filter (fun l => !(isManagedLine l)) := by
  intro L
  induction L with
  | nil => rfl
  | cons l rest ih =>
    show ((rewriteLine lp sp l :: rest.map (rewriteLine lp sp)).filter _) = _
    by_cases h1 : startsWithL l layoutKey = true
    · have hrw : rewriteLine lp sp l = layoutKey ++ lp ++ ['\n'] := by
        unfold rewriteLine
        rw [if_pos h1]
      have hm1 : isManagedLine l = true := by simp [isManagedLine, h1]
      have hsw : startsWithL (layoutKey ++ lp ++ ['\n']) layoutKey = true := by
        have h2 := startsWithL_key_append layoutKey (lp ++ ['\n'])
        rwa [← List.append_assoc] at h2
      have hm2 : isManagedLine (rewriteLine lp sp l) = true := by
        rw [hrw, List.append_assoc]
        simp [isManagedLine, startsWithL_key_append]
      simp [List.filter_cons, hm1, hm2, ih]
    · by_cases h2 : startsWithL l styleKey = true
      · have hrw : rewriteLine lp sp l = styleKey ++ sp ++ ['\n'] := by
          unfold rewriteLine
          rw [if_neg h1, if_pos h2]
        have hm1 : isManagedLine l = true := by simp [isManagedLine, h2]
        have hsw : startsWithL (styleKey ++ sp ++ ['\n']) styleKey = true := by
          have h3 := startsWithL_key_append styleKey (sp ++ ['\n'])
          rwa [← List.append_assoc] at h3
        have hm2 : isManagedLine (rewriteLine lp sp l) = true := by
          rw [hrw, List.append_assoc]
          simp [isManagedLine, startsWithL_key_append]
        simp [List.filter_cons, hm1, hm2, ih]
      · have hb1 : startsWithL l layoutKey = false := by
          cases hb : startsWithL l layoutKey
          · rfl
          · exact absurd hb h1
        have hb2 : startsWithL l styleKey = false := by
          cases hb : startsWithL l styleKey
          · rfl
          · exact absurd hb h2
        have hrw : rewriteLine lp sp l = l := by
          unfold rewriteLine
          rw [if_neg h1, if_neg h2]
        have hm : isManagedLine l = false := by simp [isManagedLine, hb1, hb2]
        simp [List.filter_cons, hrw, hm, ih]

/-- Every layout-key line of the rewritten list carries the new value. -/
theorem mapped_layout_lines (lp sp : Str) (L : List Str) (l : Str)
    (hmem : l ∈ L.map (rewriteLine lp sp)) (hsw : startsWithL l layoutKey = true) :
    l = layoutKey ++ lp ++ ['\n'] := by
  rcases List.mem_map.mp hmem with ⟨l0, _, rfl⟩
  by_cases h1 : startsWithL l0 layoutKey = true
  · unfold rewriteLine
    rw [if_pos h1]
  · exfalso
    have hfalse : startsWithL (rewriteLine lp sp l0) layoutKey = false := by
      unfold rewriteLine
      rw [if_neg h1]
      split
      · rw [List.append_assoc]
        exact sw_style_layout (sp ++ ['\n'])
      · cases hb : startsWithL l0 layoutKey
        · rfl
        · exact absurd hb h1
    rw [hfalse] at hsw
    exact Bool.noConfusion hsw

/-- Every style-key line of the rewritten list carries the new style. -/
theorem mapped_style_lines (lp sp : Str) (L : List Str) (l : Str)
    (hmem : l ∈ L.map (rewriteLine lp sp)) (hsw : startsWithL l styleKey = true) :
    l = styleKey ++ sp ++ ['\n'] := by
  rcases List.mem_map.mp hmem with ⟨l0, _, rfl⟩
  by_cases h1 : startsWithL l0 layoutKey = true
  · exfalso
    have hfalse : startsWithL (rewriteLine lp sp l0) styleKey = false := by
      unfold rewriteLine
      rw [if_pos h1, List.append_assoc]
      exact sw_layout_style (lp ++ ['\n'])
    rw [hfalse] at hsw
    exact Bool.noConfusion hsw
  · by_cases h2 : startsWithL l0 styleKey = true
    · unfold rewriteLine
      rw [if_neg h1, if_pos h2]
    · exfalso
      have hrw : rewriteLine lp sp l0 = l0 := by
        unfold rewriteLine
        rw [if_neg h1, if_neg h2]
      rw [hrw] at hsw
      exact absurd hsw h2

/-! ### Claim C3 (amended) and Claim C10 (amended) -/

/-- Claim C3, amended: the state-file write of `set_layout` preserves every
foreign line byte-for-byte and in order, and replaces every line of each
managed key in place with the freshly computed value; a managed key with no
existing line is NOT appended (see the counterexample). -/
theorem c3_state_write (env : Env) (fs : FS) (target lp st : Str) (fs2 : FS)
    (hfind : set_layout_find (list_layouts env fs) target = some lp)
    (hst : FS.lookup fs (state_file env) = some st)
    (hok : set_layout env fs target = .ok fs2)
    (hlp : '\n' ∉ lp) (hsp : '\n' ∉ resolve_style_path env fs lp) :
    ∃ newContent, FS.lookup fs2 (state_file env) = some newContent
      ∧ (splitLines newContent).filter (fun l => !(isManagedLine l))
          = (splitLines st).filter (fun l => !(isManagedLine l))
      ∧ (∀ l ∈ splitLines newContent, startsWithL l layoutKey = true →
          l = layoutKey ++ lp ++ ['\n'])
      ∧ (∀ l ∈ splitLines newContent, startsWithL l styleKey = true →
          l = styleKey ++ resolve_style_path env fs lp ++ ['\n']) := by
  have hstate := set_layout_ok_state env fs target lp st fs2 hfind hst hok
  have hsplit : splitLines (rewriteStateContent lp (resolve_style_path env fs lp) st)
      = (splitLines st).map (rewriteLine lp (resolve_style_path env fs lp)) := by
    unfold rewriteStateContent
    exact splitLines_flatten _ (wfLines_map _ _ hlp hsp _ (wfLines_splitLines st))
  refine ⟨_, hstate, ?_, ?_, ?_⟩
  · rw [hsplit]
    exact filter_unmanaged_map _ _ _
  · intro l hl hswl
    rw [hsplit] at hl
    exact mapped_layout_lines _ _ _ l hl hswl
  · intro l hl hswl
    rw [hsplit] at hl
    exact mapped_style_lines _ _ _ l hl hswl

/-- Claim C10, amended: after `set_layout` writes the layout path `lp` (for
`lp` free of newlines), the value navigation reads back is `lp` truncated at
its first `=` and then whitespace-stripped; it equals `lp` exactly when `lp`
contains no `=` and is strip-invariant (no leading or trailing whitespace). -/
theorem c10_readback (env : Env) (fs : FS) (target lp st : Str) (fs2 : FS)
    (hfind : set_layout_find (list_layouts env fs) target = some lp)
    (hst : FS.lookup fs (state_file env) = some st)
    (hok : set_layout env fs target = .ok fs2)
    (hlp : '\n' ∉ lp) (hsp : '\n' ∉ resolve_style_path env fs lp)
    (hkey : (findCurrentLayout (splitLines st)).isSome = true) :
    stateLayoutValue env fs2
      = some (stripL ((lp ++ ['\n']).takeWhile (fun c => c ≠ '=')))
    ∧ ('=' ∉ lp → stripL lp = lp → stateLayoutValue env fs2 = some lp) := by
  have hstate := set_layout_ok_state env fs target lp st fs2 hfind hst hok
  have h1 : stateLayoutValue env fs2
      = some (stripL ((lp ++ ['\n']).takeWhile (fun c => c ≠ '='))) := by
    unfold stateLayoutValue
    rw [show readFile fs2 (state_file env)
        = Except.ok (rewriteStateContent lp (resolve_style_path env fs lp) st) from by
      simp [readFile, hstate]]
    exact rewrite_reader lp _ st hlp hsp hkey
  refine ⟨h1, fun heq hstrip => ?_⟩
  rw [h1, clean_value lp heq hstrip]

/-! ### Newline-terminated content: additivity of `splitLines` -/

/-- Only the empty content has no lines. -/
theorem splitLines_eq_nil : ∀ s : Str, splitLines s = [] → s = [] := by
  intro s h
  cases s with
  | nil => rfl
  | cons c rest =>
    cases hs : splitLines rest with
    | nil =>
      rw [splitLines_cons_nil c rest hs] at h
      cases h
    | cons l ls =>
      rw [splitLines_cons_of c rest l ls hs] at h
      by_cases hc : c = '\n'
      · rw [if_pos hc] at h; cases h
      · rw [if_neg hc] at h; cases h

/-- Lines flatten back to the content. -/
theorem flatten_splitLines : ∀ s : Str, (splitLines s).flatten = s := by
  intro s
  induction s with
  | nil => rfl
  | cons c rest ih =>
    cases hs : splitLines rest with
    | nil =>
      rw [splitLines_cons_nil c rest hs]
      have hr : rest = [] := splitLines_eq_nil rest hs
      subst hr
      simp
    | cons l ls =>
      have ih2 := ih
      rw [hs, List.flatten_cons] at ih2
      rw [splitLines_cons_of c rest l ls hs]
      by_cases hc : c = '\n'
      · rw [if_pos hc, List.flatten_cons, List.flatten_cons, ← List.append_assoc,
          List.singleton_append, List.cons_append, ih2, hc]
      · rw [if_neg hc, List.flatten_cons, List.cons_append, ih2]

/-- All lines of newline-terminated content end with a newline. -/
theorem allNl_splitLines : ∀ s : Str, endsWithL s ['\n'] = true →
    ∀ l ∈ splitLines s, isNlLine l := by
  intro s
  induction s with
  | nil => intro _ l hl; cases hl
  | cons c rest ih =>
    intro hend l hl
    by_cases hr : rest = []
    · subst hr
      have hc : c = '\n' := by
        have h2 : (decide (c = '\n') && true) = true := hend
        have h3 : decide (c = '\n') = true := by
          cases hb : decide (c = '\n')
          · rw [hb] at h2; cases h2
          · rfl
        exact of_decide_eq_true h3
      subst hc
      rw [splitLines_cons_nil '\n' [] rfl] at hl
      rcases List.mem_cons.mp hl with rfl | h2
      · exact ⟨[], by simp, rfl⟩
      · cases h2
    · have hend2 : endsWithL rest ['\n'] = true := by
        have h2 := endsWithL_append_right [c] rest ['\n']
          (by simpa using List.length_pos.mpr hr)
        rw [show ([c] ++ rest : Str) = c :: rest from rfl] at h2
        rw [← h2]
        exact hend
      cases hs : splitLines rest with
      | nil =>
        exact absurd (splitLines_eq_nil rest hs) hr
      | cons l2 ls2 =>
        rw [splitLines_cons_of c rest l2 ls2 hs] at hl
        have ihall := ih hend2
        rw [hs] at ihall
        by_cases hc : c = '\n'
        · rw [if_pos hc] at hl
          rcases List.mem_cons.mp hl with rfl | h2
          · exact ⟨[], by simp, by rw [hc]; rfl⟩
          · exact ihall l h2
        · rw [if_neg hc] at hl
          rcases List.mem_cons.mp hl with rfl | h2
          · rcases ihall l2 (List.mem_cons_self ..) with ⟨b, hb, hlb⟩
            refine ⟨c :: b, ?_, by rw [hlb, List.cons_append]⟩
            intro hm
            rcases List.mem_cons.mp hm with h3 | h3
            · exact hc h3.symm
            · exact hb h3
          · exact ihall l (List.mem_cons_of_mem _ h2)

/-- Flattening newline-terminated lines distributes over `splitLines`. -/
theorem splitLines_flatten_append (y : Str) : ∀ L : List Str, (∀ l ∈ L, isNlLine l) →
    splitLines (L.flatten ++ y) = L ++ splitLines y := by
  intro L
  induction L with
  | nil => intro _; rfl
  | cons l rest ih =>
    intro h
    rcases h l (List.mem_cons_self ..) with ⟨b, hb, hlb⟩
    rw [List.flatten_cons, hlb, List.append_assoc, List.append_assoc, List.singleton_append,
      splitLines_append_nl b _ hb, ih (fun l2 h2 => h l2 (List.mem_cons_of_mem _ h2)),
      List.cons_append]

/-- `splitLines` is additive after newline-terminated content. -/
theorem splitLines_append_of_nl (x y : Str) (hx : endsWithL x ['\n'] = true) :
    splitLines (x ++ y) = splitLines x ++ splitLines y := by
  have h1 := splitLines_flatten_append y (splitLines x) (allNl_splitLines x hx)
  rwa [flatten_splitLines] at h1

/-- The first line of content starting with a newline-free key also starts
with that key. -/
theorem splitLines_head_prefix : ∀ (k r : Str), '\n' ∉ k →
    startsWithL ((splitLines (k ++ r)).headD []) k = true := by
  intro k
  induction k with
  | nil => intro r _; exact startsWithL_nil _
  | cons c k2 ih =>
    intro r hk
    have hc : c ≠ '\n' := fun h => hk (h ▸ List.mem_cons_self ..)
    have hk2 : '\n' ∉ k2 := fun h => hk (List.mem_cons_of_mem _ h)
    show startsWithL ((splitLines (c :: (k2 ++ r))).headD []) (c :: k2) = true
    cases hs : splitLines (k2 ++ r) with
    | nil =>
      have hnil : k2 ++ r = [] := splitLines_eq_nil _ hs
      have hk2nil : k2 = [] := (List.append_eq_nil.mp hnil).1
      rw [splitLines_cons_nil c _ hs]
      subst hk2nil
      show (decide (c = c) && true) = true
      rw [decide_eq_true (Eq.refl c)]
      rfl
    | cons l2 ls2 =>
      rw [splitLines_cons_of c _ l2 ls2 hs, if_neg hc]
      have ih2 := ih r hk2
      rw [hs] at ih2
      show (decide (c = c) && startsWithL l2 k2) = true
      rw [decide_eq_true (Eq.refl c), Bool.true_and]
      exact ih2

/-- Content that begins with a newline-free nonempty key has a line starting
with that key. -/
theorem any_key_of_head (k r : Str) (hk : '\n' ∉ k) (hkne : k ≠ []) :
    ((splitLines (k ++ r)).any (fun l => startsWithL l k)) = true := by
  cases hs : splitLines (k ++ r) with
  | nil =>
    exfalso
    have := splitLines_eq_nil _ hs
    exact hkne (List.append_eq_nil.mp this).1
  | cons l ls =>
    have hh := splitLines_head_prefix k r hk
    rw [hs] at hh
    simp only [List.headD_cons] at hh
    simp [List.any_cons, hh]

/-! ### Claim C8 (amended) -/

/-- Bool totality helper. -/
theorem bool_eq_false {b : Bool} (h : ¬ b = true) : b = false := by
  cases b
  · rfl
  · exact absurd rfl h

/-- `readFile` succeeds exactly on present files. -/
theorem readFile_ok_iff (fs : FS) (p c : Str) :
    readFile fs p = .ok c ↔ FS.lookup fs p = some c := by
  unfold readFile
  cases h : FS.lookup fs p <;> simp

/-- When both managed keys are present in a nonempty state file, the
bootstrap does nothing. -/
theorem ensure_noop (env : Env) (fs : FS) (c : Str)
    (hst : FS.lookup fs (state_file env) = some c)
    (h1 : (splitLines c).any (fun l => startsWithL l layoutKey) = true)
    (h2 : (splitLines c).any (fun l => startsWithL l styleKey) = true) :
    ensure_state_file env fs = .ok fs := by
  have hne : c ≠ [] := by
    intro h
    subst h
    exact Bool.noConfusion (show false = true from h1)
  have hcond : (!(fsExists fs (state_file env))
      || decide (fileSize fs (state_file env) = 0)) = false := by
    have he : fsExists fs (state_file env) = true := by simp [fsExists, hst]
    have hsz : fileSize fs (state_file env) = c.length := by simp [fileSize, hst]
    rw [he, hsz]
    simp [List.length_eq_zero, hne]
  unfold ensure_state_file
  rw [if_neg (by rw [hcond]; exact Bool.false_ne_true)]
  rw [show readFile fs (state_file env) = Except.ok c from by simp [readFile, hst]]
  show ensure_state_file_else env fs c = .ok fs
  unfold ensure_state_file_else
  rw [if_neg (by rw [h1, h2]; decide)]

/-- Claim C8, amended: `ensure_state_file` is idempotent provided the
pre-existing state file (when present and nonempty) ends with a newline —
a second call returns the filesystem of the first call unchanged — and it is
a strict no-op whenever both managed keys are already present.  Without the
trailing-newline proviso the appended key is glued onto the last line and a
second call appends again (see the counterexample). -/
theorem c8_bootstrap (env : Env) (fs fs2 : FS)
    (hnl : ∀ c, FS.lookup fs (state_file env) = some c →
      c = [] ∨ endsWithL c ['\n'] = true)
    (h1 : ensure_state_file env fs = .ok fs2) :
    ensure_state_file env fs2 = .ok fs2
    ∧ (∀ c, FS.lookup fs (state_file env) = some c →
        (splitLines c).any (fun l => startsWithL l layoutKey) = true →
        (splitLines c).any (fun l => startsWithL l styleKey) = true →
        fs2 = fs) := by
  have h1c := h1
  unfold ensure_state_file at h1
  split at h1
  · rename_i hcond
    split at h1
    · exact Except.noConfusion h1
    · obtain rfl : fs2 = fs := (Except.ok.inj h1).symm
      exact ⟨h1c, fun c hc ha hb => rfl⟩
    · rename_i cur heq
      obtain rfl : fs2 = writeFile fs (state_file env)
          (layoutKey ++ cur ++ ['\n'] ++ styleKey
            ++ resolve_style_path env fs cur ++ ['\n']) :=
        (Except.ok.inj h1).symm
      constructor
      · apply ensure_noop env _ _ (lookup_writeFile_same fs _ _)
        · have hform : layoutKey ++ cur ++ ['\n'] ++ styleKey
              ++ resolve_style_path env fs cur ++ ['\n']
              = layoutKey ++ (cur ++ ['\n'] ++ (styleKey
                ++ (resolve_style_path env fs cur ++ ['\n']))) := by
            simp [List.append_assoc]
          rw [hform]
          exact any_key_of_head layoutKey _ (by decide) (by decide)
        · have hform : layoutKey ++ cur ++ ['\n'] ++ styleKey
              ++ resolve_style_path env fs cur ++ ['\n']
              = (layoutKey ++ cur ++ ['\n'])
                ++ (styleKey ++ (resolve_style_path env fs cur ++ ['\n'])) := by
            simp [List.append_assoc]
          have hend : endsWithL (layoutKey ++ cur ++ ['\n']) ['\n'] = true := by
            rw [endsWithL_append_right _ ['\n'] ['\n'] (by decide)]
            decide
          rw [hform, splitLines_append_of_nl _ _ hend, List.any_append,
            any_key_of_head styleKey (resolve_style_path env fs cur ++ ['\n'])
              (by decide) (by decide)]
          simp
      · intro c hc ha hb
        exfalso
        have he : fsExists fs (state_file env) = true := by simp [fsExists, hc]
        have hsz : fileSize fs (state_file env) = c.length := by simp [fileSize, hc]
        rw [he, hsz] at hcond
        simp only [Bool.not_true, Bool.false_or] at hcond
        have hlen : c = [] := List.length_eq_zero.mp (of_decide_eq_true hcond)
        subst hlen
        exact Bool.noConfusion (show false = true from ha)
  · rename_i hcond
    split at h1
    · exact Except.noConfusion h1
    · rename_i c0 heqr
      have hl0 : FS.lookup fs (state_file env) = some c0 := (readFile_ok_iff fs _ c0).mp heqr
      unfold ensure_state_file_else at h1
      split at h1
      · rename_i hmiss
        split at h1
        · exact Except.noConfusion h1
        · obtain rfl : fs2 = fs := (Except.ok.inj h1).symm
          exact ⟨h1c, fun c hc ha hb => rfl⟩
        · rename_i cur heq
          obtain rfl : fs2 = appendFile fs (state_file env)
              ((if !((splitLines c0).any (fun l => startsWithL l layoutKey)) then
                  layoutKey ++ cur ++ ['\n'] else [])
               ++ (if !((splitLines c0).any (fun l => startsWithL l styleKey)) then
                  styleKey ++ resolve_style_path env fs cur ++ ['\n'] else [])) :=
            (Except.ok.inj h1).symm
          have hc0ne : c0 ≠ [] := by
            intro hnil
            apply hcond
            rw [show fsExists fs (state_file env) = true from by simp [fsExists, hl0],
              show fileSize fs (state_file env) = c0.length from by simp [fileSize, hl0],
              hnil]
            decide
          have hc0nl : endsWithL c0 ['\n'] = true := (hnl c0 hl0).resolve_left hc0ne
          have happ : ∀ a, appendFile fs (state_file env) a
              = writeFile fs (state_file env) (c0 ++ a) := by
            intro a
            unfold appendFile
            rw [hl0]
          constructor
          · rw [happ]
            apply ensure_noop env _ _ (lookup_writeFile_same fs _ _)
            · rw [splitLines_append_of_nl _ _ hc0nl, List.any_append]
              by_cases ha1 : (splitLines c0).any (fun l => startsWithL l layoutKey) = true
              · rw [ha1]
                rfl
              · have ha1f := bool_eq_false ha1
                rw [show (if !((splitLines c0).any (fun l => startsWithL l layoutKey)) then
                    layoutKey ++ cur ++ ['\n'] else []) = layoutKey ++ cur ++ ['\n'] from by
                  rw [ha1f]
                  rfl]
                rw [show (layoutKey ++ cur ++ ['\n'])
                    ++ (if !((splitLines c0).any (fun l => startsWithL l styleKey)) then
                      styleKey ++ resolve_style_path env fs cur ++ ['\n'] else [])
                    = layoutKey ++ (cur ++ (['\n']
                      ++ (if !((splitLines c0).any (fun l => startsWithL l styleKey)) then
                        styleKey ++ resolve_style_path env fs cur ++ ['\n'] else []))) from by
                  simp [List.append_assoc]]
                rw [any_key_of_head layoutKey _ (by decide) (by decide)]
                simp
            · rw [splitLines_append_of_nl _ _ hc0nl, List.any_append]
              by_cases ha2 : (splitLines c0).any (fun l => startsWithL l styleKey) = true
              · rw [ha2]
                simp
              · have ha2f := bool_eq_false ha2
                rw [show (if !((splitLines c0).any (fun l => startsWithL l styleKey)) then
                    styleKey ++ resolve_style_path env fs cur ++ ['\n'] else [])
                    = styleKey ++ resolve_style_path env fs cur ++ ['\n'] from by
                  rw [ha2f]
                  rfl]
                by_cases ha1 : (splitLines c0).any (fun l => startsWithL l layoutKey) = true
                · rw [show (if !((splitLines c0).any (fun l => startsWithL l layoutKey)) then
                      layoutKey ++ cur ++ ['\n'] else []) = [] from by
                    rw [ha1]
                    rfl]
                  rw [List.nil_append,
                    show styleKey ++ resolve_style_path env fs cur ++ ['\n']
                      = styleKey ++ (resolve_style_path env fs cur ++ ['\n']) from by
                    simp [List.append_assoc]]
                  rw [any_key_of_head styleKey _ (by decide) (by decide)]
                  simp
                · have ha1f := bool_eq_false ha1
                  rw [show (if !((splitLines c0).any (fun l => startsWithL l layoutKey)) then
                      layoutKey ++ cur ++ ['\n'] else []) = layoutKey ++ cur ++ ['\n'] from by
                    rw [ha1f]
                    rfl]
                  have hend : endsWithL (layoutKey ++ cur ++ ['\n']) ['\n'] = true := by
                    rw [endsWithL_append_right _ ['\n'] ['\n'] (by decide)]
                    decide
                  rw [splitLines_append_of_nl _ _ hend, List.any_append,
                    show styleKey ++ resolve_style_path env fs cur ++ ['\n']
                      = styleKey ++ (resolve_style_path env fs cur ++ ['\n']) from by
                    simp [List.append_assoc]]
                  rw [any_key_of_head styleKey _ (by decide) (by decide)]
                  simp
          · intro c hc ha hb
            exfalso
            have hcc : c = c0 := Option.some.inj (hc.symm.trans hl0)
            subst hcc
            rw [ha, hb] at hmiss
            exact Bool.noConfusion (show false = true from hmiss)
      · obtain rfl : fs2 = fs := (Except.ok.inj h1).symm
        exact ⟨h1c, fun c hc ha hb => rfl⟩

/-- Claim C3, witness for the amended theorem. -/
theorem c3_witness :
    ∃ newContent, FS.lookup fs2C3W (state_file envT) = some newContent
      ∧ (splitLines newContent).filter (fun l => !(isManagedLine l))
          = (splitLines (S "OTHER=1\nWAYBAR_LAYOUT_PATH=/old\nWAYBAR_STYLE_PATH=/olds\n")).filter
              (fun l => !(isManagedLine l))
      ∧ (∀ l ∈ splitLines newContent, startsWithL l layoutKey = true →
          l = layoutKey ++ S "/c/waybar/layouts/a.jsonc" ++ ['\n'])
      ∧ (∀ l ∈ splitLines newContent, startsWithL l styleKey = true →
          l = styleKey ++ resolve_style_path envT fsC3W (S "/c/waybar/layouts/a.jsonc") ++ ['\n']) :=
  c3_state_write envT fsC3W (S "/c/waybar/layouts/a.jsonc") (S "/c/waybar/layouts/a.jsonc")
    (S "OTHER=1\nWAYBAR_LAYOUT_PATH=/old\nWAYBAR_STYLE_PATH=/olds\n") fs2C3W
    (by decide) (by decide) (by decide) (by decide) (by decide)

/-- Claim C10, witness for the amended theorem: a clean path reads back
exactly. -/
theorem c10_witness : stateLayoutValue envT fs2C10W = some (S "/c/waybar/layouts/a.jsonc") :=
  (c10_readback envT fsC10W (S "/c/waybar/layouts/a.jsonc") (S "/c/waybar/layouts/a.jsonc")
    (S "WAYBAR_LAYOUT_PATH=/old\n") fs2C10W (by decide) (by decide) (by decide) (by decide)
    (by decide) (by decide)).2 (by decide) (by decide)

/-- Claim C8, witness for the amended theorem: with a newline-terminated
state file the second bootstrap is a no-op. -/
theorem c8_witness : ensure_state_file envT fs2C8W = .ok fs2C8W :=
  (c8_bootstrap envT fsC8W fs2C8W
    (fun c hc => Or.inr (by
      rw [← Option.some.inj (show some (S "OTHER=1\n") = some c from hc)]
      decide))
    (by decide)).1

/-! ### Catalog membership and stability -/

/-- Sorting preserves membership. -/
theorem mem_sortStr : ∀ (l : List Str) (x : Str), x ∈ sortStr l ↔ x ∈ l := by
  intro l x
  induction l with
  | nil => simp [sortStr]
  | cons a rest ih =>
    show x ∈ insertSorted a (sortStr rest) ↔ _
    rw [mem_insertSorted]
    simp [ih]

/-- A prefix extended on the right is still a prefix of the whole. -/
theorem startsWithL_of_append_right (p d x : Str)
    (h : startsWithL p (d ++ x) = true) : startsWithL p d = true := by
  rcases (startsWithL_iff _ _).mp h with ⟨r, rfl⟩
  exact (startsWithL_iff _ _).mpr ⟨x ++ r, by simp⟩

/-- What membership in the catalog gives: a real file, the layout extension,
and a search-directory ancestor. -/
theorem mem_catalog (env : Env) (fs : FS) (p : Str)
    (h : p ∈ find_layout_files env fs) :
    endsWithL p (S ".jsonc") = true
    ∧ (FS.lookup fs p).isSome = true
    ∧ ∃ d ∈ LAYOUT_DIRS env, startsWithL p (d ++ S "/") = true := by
  unfold find_layout_files at h
  rw [mem_sortStr] at h
  obtain ⟨hflat, hjson⟩ := List.mem_filter.mp h
  rcases List.mem_flatten.mp hflat with ⟨wl, hwl, hpwl⟩
  rcases List.mem_map.mp hwl with ⟨d, hd, rfl⟩
  unfold walkFiles at hpwl
  obtain ⟨hmm, hsw⟩ := List.mem_filter.mp hpwl
  rcases List.mem_map.mp hmm with ⟨e, he, rfl⟩
  refine ⟨hjson, ?_, d, hd, hsw⟩
  unfold FS.lookup
  have hf : (fs.files.find? (fun e2 => e2.1 = e.1)).isSome = true :=
    List.find?_isSome.mpr ⟨e, he, by simp⟩
  cases hfo : fs.files.find? (fun e2 => e2.1 = e.1) with
  | none => rw [hfo] at hf; cases hf
  | some e2 => rfl

/-- A catalog path is never empty. -/
theorem jsonc_ne_nil (p : Str) (h : endsWithL p (S ".jsonc") = true) : p ≠ [] := by
  intro hp
  rw [hp] at h
  exact Bool.noConfusion (show false = true from h)

/-- Style directories are newline-free in a clean environment. -/
theorem style_dir_no_nl (env : Env) (h1 : '\n' ∉ env.xdgConfigHome)
    (h2 : '\n' ∉ env.xdgDataHome) : ∀ d ∈ STYLE_DIRS env, '\n' ∉ d := by
  intro d hd
  unfold STYLE_DIRS at hd
  rcases (by simpa using hd : d = env.xdgConfigHome ++ S "/waybar/styles"
      ∨ d = env.xdgDataHome ++ S "/waybar/styles") with rfl | rfl
  · exact not_nl_append _ _ h1 (by decide)
  · exact not_nl_append _ _ h2 (by decide)

/-- The resolved style path is newline-free when every filesystem path and
the environment roots are. -/
theorem resolve_no_nl (env : Env) (fs : FS) (lp : Str)
    (hfs : ∀ e ∈ fs.files, '\n' ∉ e.1)
    (h1 : '\n' ∉ env.xdgConfigHome) (h2 : '\n' ∉ env.xdgDataHome) :
    '\n' ∉ resolve_style_path env fs lp := by
  unfold resolve_style_path
  split
  · rename_i p hloop
    rcases resolve_style_loop_mem fs _ _ p hloop with ⟨d, _, n, hmem⟩
    unfold globNameCss at hmem
    have hp := (List.mem_filter.mp hmem).1
    rcases List.mem_map.mp hp with ⟨e, he, rfl⟩
    exact hfs e he
  · split
    · rename_i d hfind
      have hd := List.mem_of_find?_eq_some hfind
      exact not_nl_append _ _ (style_dir_no_nl env h1 h2 d hd) (by decide)
    · exact not_nl_append _ _
        (not_nl_append _ _ h1 (by decide)) (by decide)

/-- Writing a file appends at most its own path to the path multiset. -/
theorem map_fst_replaceEntry : ∀ (l : List (Str × Str)) (p c : Str),
    (replaceEntry l p c).map Prod.fst
      = l.map Prod.fst ++ (if (l.find? (fun e => e.1 = p)).isSome then [] else [p]) := by
  intro l p c
  induction l with
  | nil => simp [replaceEntry, List.find?]
  | cons e rest ih =>
    unfold replaceEntry
    by_cases h : e.1 = p
    · rw [if_pos h, List.find?_cons_of_pos _ (by simp [h])]
      simp [h]
    · rw [if_neg h, List.find?_cons_of_neg _ (by simp [h])]
      simp [ih]

/-- `walkFiles` after a write: the old walk plus possibly the written path. -/
theorem walkFiles_writeFile (fs : FS) (p c dir : Str) :
    walkFiles (writeFile fs p c) dir
      = walkFiles fs dir
        ++ (if (fs.files.find? (fun e => e.1 = p)).isSome then []
            else if startsWithL p (dir ++ S "/") then [p] else []) := by
  unfold walkFiles writeFile
  rw [map_fst_replaceEntry, List.filter_append]
  congr 1
  by_cases h : (fs.files.find? (fun e => e.1 = p)).isSome = true
  · rw [if_pos h, if_pos h]
    rfl
  · rw [if_neg h, if_neg h]
    by_cases hsw : startsWithL p (dir ++ S "/") = true
    · rw [if_pos hsw]
      simp [List.filter_cons, hsw]
    · rw [if_neg hsw]
      simp [List.filter_cons, bool_eq_false hsw]

/-- Writing a non-catalog path leaves the catalog unchanged. -/
theorem find_layout_files_writeFile (env : Env) (fs : FS) (p c : Str)
    (hno : ∀ d ∈ LAYOUT_DIRS env, startsWithL p (d ++ S "/") = true →
      endsWithL p (S ".jsonc") = false) :
    find_layout_files env (writeFile fs p c) = find_layout_files env fs := by
  unfold find_layout_files
  have haux : ∀ dirs : List Str, (∀ d ∈ dirs, startsWithL p (d ++ S "/") = true →
      endsWithL p (S ".jsonc") = false) →
      ((dirs.map (walkFiles (writeFile fs p c))).flatten).filter
          (fun q => endsWithL q (S ".jsonc"))
        = ((dirs.map (walkFiles fs)).flatten).filter (fun q => endsWithL q (S ".jsonc")) := by
    intro dirs
    induction dirs with
    | nil => intro _; rfl
    | cons d rest ihd =>
      intro hd
      rw [List.map_cons, List.map_cons, List.flatten_cons, List.flatten_cons,
        List.filter_append, List.filter_append,
        ihd (fun d2 h2 => hd d2 (List.mem_cons_of_mem _ h2)),
        walkFiles_writeFile, List.filter_append]
      have hextra : ((if (fs.files.find? (fun e => e.1 = p)).isSome then []
          else if startsWithL p (d ++ S "/") then [p] else []).filter
            (fun q => endsWithL q (S ".jsonc"))) = [] := by
        by_cases h1 : (fs.files.find? (fun e => e.1 = p)).isSome = true
        · rw [if_pos h1]
          rfl
        · rw [if_neg h1]
          by_cases h2 : startsWithL p (d ++ S "/") = true
          · rw [if_pos h2]
            simp [List.filter_cons, hd d (List.mem_cons_self ..) h2]
          · rw [if_neg h2]
            rfl
      rw [hextra, List.append_nil]
  rw [haux _ hno]

/-- Membership through a write: an entry is old or is the written one. -/
theorem mem_replaceEntry : ∀ (l : List (Str × Str)) (p c : Str) (e : Str × Str),
    e ∈ replaceEntry l p c → e ∈ l ∨ e = (p, c) := by
  intro l p c e h
  induction l with
  | nil => simp [replaceEntry] at h; exact Or.inr h
  | cons e2 rest ih =>
    unfold replaceEntry at h
    by_cases h2 : e2.1 = p
    · rw [if_pos h2] at h
      rcases List.mem_cons.mp h with rfl | h3
      · exact Or.inr rfl
      · exact Or.inl (List.mem_cons_of_mem _ h3)
    · rw [if_neg h2] at h
      rcases List.mem_cons.mp h with rfl | h3
      · exact Or.inl (List.mem_cons_self ..)
      · rcases ih h3 with h4 | h4
        · exact Or.inl (List.mem_cons_of_mem _ h4)
        · exact Or.inr h4

/-! ### Index lemmas for circular navigation -/

/-- A found index points at an element satisfying the predicate. -/
theorem findIdx?_some_get : ∀ (l : List Str) (p : Str → Bool) (i : Nat),
    l.findIdx? p = some i → ∃ h : i < l.length, p (l.get ⟨i, h⟩) = true := by
  intro l
  induction l with
  | nil => intro p i h; cases h
  | cons a rest ih =>
    intro p i h
    rw [List.findIdx?_cons, List.findIdx?_succ] at h
    by_cases hp : p a = true
    · rw [if_pos hp] at h
      injection h with h
      subst h
      exact ⟨by simp, hp⟩
    · rw [if_neg hp] at h
      cases hrest : rest.findIdx? p with
      | none => rw [hrest] at h; cases h
      | some j =>
        rw [hrest] at h
        injection h with h
        subst h
        obtain ⟨hj, hpj⟩ := ih p j hrest
        exact ⟨by simpa using Nat.succ_lt_succ hj, hpj⟩

/-- Membership yields a found index for the equality predicate. -/
theorem findIdx?_of_mem : ∀ (l : List Str) (a : Str), a ∈ l →
    ∃ i, l.findIdx? (fun x => x = a) = some i := by
  intro l a
  induction l with
  | nil => intro h; cases h
  | cons b rest ih =>
    intro h
    rw [List.findIdx?_cons, List.findIdx?_succ]
    by_cases hb : (decide (b = a)) = true
    · exact ⟨0, by rw [if_pos hb]⟩
    · have hmem : a ∈ rest := by
        rcases List.mem_cons.mp h with rfl | h2
        · exact absurd (decide_eq_true rfl) hb
        · exact h2
      obtain ⟨i, hi⟩ := ih hmem
      exact ⟨i + 1, by rw [if_neg hb, hi]; rfl⟩

/-- On a duplicate-free list, the index found for the element at `k` is `k`
itself. -/
theorem findIdx?_nodup : ∀ (l : List Str), l.Nodup → ∀ (k : Nat) (h : k < l.length),
    l.findIdx? (fun x => x = l.get ⟨k, h⟩) = some k := by
  intro l
  induction l with
  | nil => intro _ k h; cases h
  | cons b rest ih =>
    intro hnd k h
    obtain ⟨hb, hrest⟩ := List.nodup_cons.mp hnd
    cases k with
    | zero =>
      rw [List.findIdx?_cons]
      exact if_pos (decide_eq_true rfl)
    | succ k2 =>
      have hk2 : k2 < rest.length := by simpa using Nat.lt_of_succ_lt_succ h
      have hget : (b :: rest).get ⟨k2 + 1, h⟩ = rest.get ⟨k2, hk2⟩ := rfl
      rw [List.findIdx?_cons, List.findIdx?_succ, hget]
      have hbne : (decide (b = rest.get ⟨k2, hk2⟩)) = false := by
        apply decide_eq_false
        intro hbe
        exact hb (hbe ▸ List.get_mem rest k2 hk2)
      rw [if_neg (by rw [hbne]; exact Bool.false_ne_true), ih hrest k2 hk2]
      rfl

/-- The Python index arithmetic stays inside the catalog. -/
theorem navTargetIndex_lt (opt : NavOpt) (i N : Nat) (hN : 0 < N) :
    (navTargetIndex opt i N).toNat < N := by
  have hN0 : (N : Int) ≠ 0 := by exact_mod_cast Nat.pos_iff_ne_zero.mp hN
  have hNpos : (0 : Int) < N := by exact_mod_cast hN
  cases opt with
  | next =>
    have h2 := Int.emod_lt_of_pos ((i : Int) + 1) hNpos
    have h1 := Int.emod_nonneg ((i : Int) + 1) hN0
    show ((((i : Int) + 1) % (N : Int))).toNat < N
    omega
  | prev =>
    have h2 := Int.emod_lt_of_pos ((i : Int) - 1 + N) hNpos
    have h1 := Int.emod_nonneg ((i : Int) - 1 + N) hN0
    show ((((i : Int) - 1 + (N : Int)) % (N : Int))).toNat < N
    omega

/-- One step forward then one step back (or the reverse) is the identity on
catalog indices. -/
theorem navTargetIndex_round (opt : NavOpt) (i N : Nat) (hi : i < N) :
    (navTargetIndex opt.flip (navTargetIndex opt i N).toNat N).toNat = i := by
  have hN : 0 < N := Nat.lt_of_le_of_lt (Nat.zero_le i) hi
  have hN0 : (N : Int) ≠ 0 := by exact_mod_cast Nat.pos_iff_ne_zero.mp hN
  have hNpos : (0 : Int) < N := by exact_mod_cast hN
  have hiN : (i : Int) < N := by exact_mod_cast hi
  have hi0 : (0 : Int) ≤ i := by positivity
  cases opt with
  | next =>
    have h1 := Int.emod_nonneg ((i : Int) + 1) hN0
    have hcast : (((((i : Int) + 1) % N).toNat : Int)) = ((i : Int) + 1) % N :=
      Int.toNat_of_nonneg h1
    show ((((((i : Int) + 1) % (N : Int)).toNat : Int) - 1 + (N : Int)) % (N : Int)).toNat = i
    rw [hcast]
    have harith : (((i : Int) + 1) % N - 1 + N) % N = i := by
      have e1 : (((i : Int) + 1) % N - 1 + N) % N = (((i : Int) + 1) % N + (N - 1)) % N := by
        ring_nf
      have e2 : (((i : Int) + 1) % N + (N - 1)) % N = (((i : Int) + 1) + (N - 1)) % N :=
        Int.emod_add_emod ((i : Int) + 1) N (N - 1)
      have e3 : (((i : Int) + 1) + ((N : Int) - 1)) = (i : Int) + N * 1 := by ring
      rw [e1, e2, e3, Int.add_mul_emod_self_left]
      exact Int.emod_eq_of_lt hi0 hiN
    rw [harith]
    exact Int.toNat_ofNat i
  | prev =>
    have h1 := Int.emod_nonneg ((i : Int) - 1 + N) hN0
    have hcast : (((((i : Int) - 1 + N) % N).toNat : Int)) = ((i : Int) - 1 + N) % N :=
      Int.toNat_of_nonneg h1
    show ((((((i : Int) - 1 + (N : Int)) % (N : Int)).toNat : Int) + 1) % (N : Int)).toNat = i
    rw [hcast]
    have harith : (((i : Int) - 1 + N) % N + 1) % N = i := by
      have e2 : (((i : Int) - 1 + N) % N + 1) % N = (((i : Int) - 1 + N) + 1) % N :=
        Int.emod_add_emod ((i : Int) - 1 + N) N 1
      have e3 : (((i : Int) - 1 + (N : Int)) + 1) = (i : Int) + N * 1 := by ring
      rw [e2, e3, Int.add_mul_emod_self_left]
      exact Int.emod_eq_of_lt hi0 hiN
    rw [harith]
    exact Int.toNat_ofNat i

/-! ### Target resolution and totality of `set_layout` on catalog members -/

/-- A catalog path resolves to itself when display names never collide with
catalog paths: the first matching pair matches by path. -/
theorem set_layout_find_of_mem (env : Env) (fs : FS) (p : Str)
    (hmem : p ∈ find_layout_files env fs)
    (hnames : ∀ pr ∈ list_layouts env fs, pr.name ∉ find_layout_files env fs) :
    set_layout_find (list_layouts env fs) p = some p := by
  obtain ⟨hjson, hlook, d, hd, hsw⟩ := mem_catalog env fs p hmem
  have hdirs : ((LAYOUT_DIRS env).find? (fun d2 => startsWithL p d2)).isSome = true :=
    List.find?_isSome.mpr ⟨d, hd, startsWithL_of_append_right p d (S "/") hsw⟩
  obtain ⟨n, hn⟩ : ∃ n, layoutName (LAYOUT_DIRS env) p = some n := by
    unfold layoutName
    cases hfo : (LAYOUT_DIRS env).find? (fun d2 => startsWithL p d2) with
    | none => rw [hfo] at hdirs; cases hdirs
    | some d2 => exact ⟨_, rfl⟩
  have hpair : (⟨p, n, resolve_style_path env fs p⟩ : LayoutPair) ∈ list_layouts env fs := by
    unfold list_layouts
    exact List.mem_filterMap.mpr ⟨p, hmem, by rw [hn]⟩
  have hfs : ((list_layouts env fs).find?
      (fun pr => p = pr.layout || p = pr.name)).isSome = true :=
    List.find?_isSome.mpr ⟨_, hpair, by simp⟩
  unfold set_layout_find
  cases hfo : (list_layouts env fs).find? (fun pr => p = pr.layout || p = pr.name) with
  | none => rw [hfo] at hfs; cases hfs
  | some pr =>
    have hprmem := List.mem_of_find?_eq_some hfo
    have hsat := List.find?_some hfo
    have hsat2 : p = pr.layout ∨ p = pr.name := by
      simpa using hsat
    have hpl : p = pr.layout := by
      rcases hsat2 with h | h
      · exact h
      · exact absurd hmem (by rw [h]; exact hnames pr hprmem)
    show some pr.layout = some p
    rw [← hpl]

/-- `set_layout` succeeds whenever the resolved target is a catalog member
and the state file is readable: the layout file exists (it was discovered on
disk) and is distinct from the state file just rewritten. -/
theorem set_layout_total (env : Env) (fs : FS) (target lp st : Str)
    (hfind : set_layout_find (list_layouts env fs) target = some lp)
    (hmem : lp ∈ find_layout_files env fs)
    (hst : FS.lookup fs (state_file env) = some st) :
    ∃ fs2, set_layout env fs target = .ok fs2 := by
  obtain ⟨hjson, hlook, -⟩ := mem_catalog env fs lp hmem
  obtain ⟨lc, hlc⟩ := Option.isSome_iff_exists.mp hlook
  have hlc2 : FS.lookup (writeFile fs (state_file env)
      (rewriteStateContent lp (resolve_style_path env fs lp) st)) lp = some lc := by
    rw [lookup_writeFile_other _ _ _ _ (jsonc_ne_state env lp hjson)]
    exact hlc
  cases hres : set_layout env fs target with
  | ok fs2 => exact ⟨fs2, rfl⟩
  | error e =>
    exfalso
    unfold set_layout at hres
    split at hres
    · rename_i heq
      rw [hfind] at heq
      cases heq
    · rename_i lp2 heq
      have hlp2 : lp = lp2 := Option.some.inj (hfind.symm.trans heq)
      subst hlp2
      split at hres
      · rename_i hnil
        exact jsonc_ne_nil lp hjson hnil
      · split at hres
        · rename_i e2 heq2
          rw [show readFile fs (state_file env) = Except.ok st from by
            simp [readFile, hst]] at heq2
          cases heq2
        · rename_i st2 heq2
          rw [show readFile fs (state_file env) = Except.ok st from by
            simp [readFile, hst]] at heq2
          have hst2 : st = st2 := Except.ok.inj heq2
          subst hst2
          split at hres
          · rename_i e2 heq3
            rw [show readFile (writeFile fs (state_file env)
                (rewriteStateContent lp (resolve_style_path env fs lp) st)) lp
                = Except.ok lc from by simp [readFile, hlc2]] at heq3
            cases heq3
          · exact Except.noConfusion hres

/-- The three writes of a successful `set_layout` — state file, installed
configuration, installed style — never create or destroy a catalog entry when
the installed configuration lies outside every layout directory. -/
theorem set_layout_catalog (env : Env) (fs : FS) (target lp st : Str) (fs2 : FS)
    (hcfg : ∀ d ∈ LAYOUT_DIRS env, startsWithL (config_filepath env) (d ++ S "/") = false)
    (hfind : set_layout_find (list_layouts env fs) target = some lp)
    (hst : FS.lookup fs (state_file env) = some st)
    (hok : set_layout env fs target = .ok fs2) :
    find_layout_files env fs2 = find_layout_files env fs := by
  obtain ⟨lc, hlc, rfl⟩ := set_layout_ok_eq env fs target lp st fs2 hfind hst hok
  rw [find_layout_files_writeFile _ _ _ _ (fun d hd _ => style_not_jsonc env),
    find_layout_files_writeFile _ _ _ _ (fun d hd hsw => by
      rw [hcfg d hd] at hsw
      exact Bool.noConfusion hsw),
    find_layout_files_writeFile _ _ _ _ (fun d hd _ => state_not_jsonc env)]

/-- A write with a newline-free path preserves newline-freeness of every
stored path. -/
theorem noNl_writeFile (fs : FS) (p c : Str)
    (hfs : ∀ e ∈ fs.files, '\n' ∉ e.1) (hp : '\n' ∉ p) :
    ∀ e ∈ (writeFile fs p c).files, '\n' ∉ e.1 := by
  intro e he
  rcases mem_replaceEntry fs.files p c e he with h | rfl
  · exact hfs e h
  · exact hp

/-- Display names depend only on the catalog, not on style resolution, so an
unchanged catalog fixes the name column of `list_layouts`. -/
theorem list_layouts_names (env : Env) (fs fs2 : FS)
    (hcat : find_layout_files env fs2 = find_layout_files env fs) :
    (list_layouts env fs2).map (fun pr => pr.name)
      = (list_layouts env fs).map (fun pr => pr.name) := by
  unfold list_layouts
  rw [hcat, List.map_filterMap, List.map_filterMap]
  apply List.filterMap_congr
  intro p _
  cases hln : layoutName (LAYOUT_DIRS env) p <;> rfl

/-- A successful `set_layout` preserves every clean-setup invariant: the
catalog, its cleanliness, path newline-freeness, and name non-collision. -/
theorem cleanSetup_preserved (env : Env) (fs : FS) (target lp st : Str) (fs2 : FS)
    (hcs : CleanSetup env fs)
    (hfind : set_layout_find (list_layouts env fs) target = some lp)
    (hst : FS.lookup fs (state_file env) = some st)
    (hok : set_layout env fs target = .ok fs2) :
    CleanSetup env fs2 := by
  obtain ⟨hnd, hclean, hnl, hc1, hc2, hc3, hcfg, hnames⟩ := hcs
  have hcat : find_layout_files env fs2 = find_layout_files env fs :=
    set_layout_catalog env fs target lp st fs2 hcfg hfind hst hok
  have hnl2 : ∀ e ∈ fs2.files, '\n' ∉ e.1 := by
    obtain ⟨lc, hlc, rfl⟩ := set_layout_ok_eq env fs target lp st fs2 hfind hst hok
    refine noNl_writeFile _ _ _ (noNl_writeFile _ _ _ (noNl_writeFile _ _ _ hnl ?_) ?_) ?_
    · unfold state_file
      exact not_nl_append _ _ hc3 (by decide)
    · unfold config_filepath
      exact not_nl_append _ _ hc1 (by decide)
    · unfold style_filepath
      exact not_nl_append _ _ hc1 (by decide)
  refine ⟨?_, ?_, hnl2, hc1, hc2, hc3, hcfg, ?_⟩
  · rw [hcat]
    exact hnd
  · rw [hcat]
    exact hclean
  · intro pr hpr
    rw [hcat]
    have hmm : pr.name ∈ (list_layouts env fs2).map (fun pr2 => pr2.name) :=
      List.mem_map.mpr ⟨pr, hpr, rfl⟩
    rw [list_layouts_names env fs fs2 hcat] at hmm
    rcases List.mem_map.mp hmm with ⟨pr2, hpr2, heq⟩
    rw [← heq]
    exact hnames pr2 hpr2

/-- Inversion of a readable state value: a present state file whose lines
yield the value. -/
theorem stateLayoutValue_inv (env : Env) (fs : FS) (v : Str)
    (h : stateLayoutValue env fs = some v) :
    ∃ st, FS.lookup fs (state_file env) = some st
      ∧ findCurrentLayout (splitLines st) = some v := by
  unfold stateLayoutValue at h
  cases hr : readFile fs (state_file env) with
  | error e =>
    rw [hr] at h
    exact Option.noConfusion h
  | ok st =>
    rw [hr] at h
    exact ⟨st, (readFile_ok_iff fs _ st).mp hr, h⟩

/-- One navigation step under a clean setup: it succeeds, moves the persisted
layout to the catalog entry one step away circularly, and preserves both the
catalog and the clean setup. -/
theorem nav_step (env : Env) (fs : FS) (opt : NavOpt) (cur st : Str) (i : Nat)
    (hcs : CleanSetup env fs)
    (hst : FS.lookup fs (state_file env) = some st)
    (hfc : findCurrentLayout (splitLines st) = some cur)
    (hmem : cur ∈ find_layout_files env fs)
    (hidx : (find_layout_files env fs).findIdx? (fun l => l = cur) = some i) :
    ∃ fs2,
      handle_layout_navigation env fs opt = .ok fs2
      ∧ (∀ target, (find_layout_files env fs).get?
            (navTargetIndex opt i (find_layout_files env fs).length).toNat = some target →
          stateLayoutValue env fs2 = some target)
      ∧ find_layout_files env fs2 = find_layout_files env fs
      ∧ CleanSetup env fs2 := by
  have hN : 0 < (find_layout_files env fs).length := List.length_pos_of_mem hmem
  have hjlt : (navTargetIndex opt i (find_layout_files env fs).length).toNat
      < (find_layout_files env fs).length := navTargetIndex_lt opt i _ hN
  obtain ⟨target, htget⟩ : ∃ t, (find_layout_files env fs).get?
      (navTargetIndex opt i (find_layout_files env fs).length).toNat = some t :=
    ⟨_, List.get?_eq_get hjlt⟩
  have htmem : target ∈ find_layout_files env fs := List.get?_mem htget
  obtain ⟨hnd, hclean, hnl, hc1, hc2, hc3, hcfg, hnames⟩ := hcs
  have hfindT : set_layout_find (list_layouts env fs) target = some target :=
    set_layout_find_of_mem env fs target htmem hnames
  obtain ⟨fs2, hok⟩ := set_layout_total env fs target target st hfindT htmem hst
  have hcat := set_layout_catalog env fs target target st fs2 hcfg hfindT hst hok
  have hcs2 : CleanSetup env fs2 := cleanSetup_preserved env fs target target st fs2
    ⟨hnd, hclean, hnl, hc1, hc2, hc3, hcfg, hnames⟩ hfindT hst hok
  obtain ⟨hTeq, hTnl, hTstrip⟩ := hclean target htmem
  have hsp : '\n' ∉ resolve_style_path env fs target := resolve_no_nl env fs target hnl hc1 hc2
  have hkey : (findCurrentLayout (splitLines st)).isSome = true := by
    rw [hfc]
    rfl
  have hstate := set_layout_ok_state env fs target target st fs2 hfindT hst hok
  have hval : stateLayoutValue env fs2 = some target := by
    unfold stateLayoutValue
    rw [show readFile fs2 (state_file env)
        = Except.ok (rewriteStateContent target (resolve_style_path env fs target) st) from by
      simp [readFile, hstate]]
    show findCurrentLayout (splitLines (rewriteStateContent target
        (resolve_style_path env fs target) st)) = some target
    rw [rewrite_reader target _ st hTnl hsp hkey, clean_value target hTeq hTstrip]
  obtain ⟨hjsonC, -, -⟩ := mem_catalog env fs cur hmem
  refine ⟨fs2, ?_, ?_, hcat, hcs2⟩
  · unfold handle_layout_navigation
    rw [show readFile fs (state_file env) = Except.ok st from by simp [readFile, hst]]
    show nav_after_read env fs opt st = Except.ok fs2
    unfold nav_after_read
    rw [hfc]
    show (if cur = [] then Except.ok fs else _) = Except.ok fs2
    rw [if_neg (jsonc_ne_nil cur hjsonC)]
    rw [if_pos (List.elem_eq_true_of_mem hmem)]
    show nav_with_current env fs opt cur = Except.ok fs2
    unfold nav_with_current
    rw [hidx]
    show (match (find_layout_files env fs).get?
        (navTargetIndex opt i (find_layout_files env fs).length).toNat with
      | none => Except.error Err.indexError
      | some t => set_layout env fs t) = Except.ok fs2
    rw [htget]
    exact hok
  · intro t ht
    rw [htget] at ht
    rw [hval]
    exact ht

set_option maxRecDepth 8192

/-- Claim C2, amended: under a clean setup — duplicate-free catalog of clean
paths (no `=`, no newline, strip-invariant), newline-free filesystem paths
and roots, an installed configuration outside every layout directory, and
display names that never collide with catalog paths — and provided the
persisted layout value is itself a catalog member, `Next` then `Prev` (or
`Prev` then `Next`) returns the persisted layout to the original entry, and
on a one-entry catalog a single step already reselects the same entry.
Without the provisos the round trip fails (see the counterexample): the code
re-reads the value through a reader that truncates at `=`, and recaches
through a content hash that conflates equal-content layouts. -/
theorem c2_round_trip (env : Env) (fs : FS) (opt : NavOpt) (cur : Str)
    (hcs : CleanSetup env fs)
    (hcur : stateLayoutValue env fs = some cur)
    (hmem : cur ∈ find_layout_files env fs) :
    ∃ fs2 fs3,
      handle_layout_navigation env fs opt = .ok fs2
      ∧ handle_layout_navigation env fs2 opt.flip = .ok fs3
      ∧ stateLayoutValue env fs3 = some cur
      ∧ ((find_layout_files env fs).length = 1 → stateLayoutValue env fs2 = some cur) := by
  obtain ⟨st, hst, hfc⟩ := stateLayoutValue_inv env fs cur hcur
  obtain ⟨i, hidx⟩ := findIdx?_of_mem _ cur hmem
  obtain ⟨hilt, hieq⟩ := findIdx?_some_get _ _ _ hidx
  have hcureq : (find_layout_files env fs).get ⟨i, hilt⟩ = cur := of_decide_eq_true hieq
  have hN : 0 < (find_layout_files env fs).length := List.length_pos_of_mem hmem
  obtain ⟨fs2, hok1, hv1, hcat1, hcs1⟩ := nav_step env fs opt cur st i hcs hst hfc hmem hidx
  have hjlt : (navTargetIndex opt i (find_layout_files env fs).length).toNat
      < (find_layout_files env fs).length := navTargetIndex_lt opt i _ hN
  have hv1t : stateLayoutValue env fs2
      = some ((find_layout_files env fs).get ⟨_, hjlt⟩) :=
    hv1 _ (List.get?_eq_get hjlt)
  obtain ⟨st2, hst2, hfc2⟩ := stateLayoutValue_inv env fs2 _ hv1t
  have htmem2 : (find_layout_files env fs).get ⟨_, hjlt⟩ ∈ find_layout_files env fs2 := by
    rw [hcat1]
    exact List.get_mem _ _ _
  have hidx2 : (find_layout_files env fs2).findIdx?
      (fun l => l = (find_layout_files env fs).get ⟨_, hjlt⟩)
      = some (navTargetIndex opt i (find_layout_files env fs).length).toNat := by
    rw [hcat1]
    exact findIdx?_nodup _ hcs.1 _ hjlt
  obtain ⟨fs3, hok2, hv2, hcat2, hcs2⟩ :=
    nav_step env fs2 opt.flip _ st2 _ hcs1 hst2 hfc2 htmem2 hidx2
  refine ⟨fs2, fs3, hok1, hok2, ?_, ?_⟩
  · apply hv2
    rw [hcat1, navTargetIndex_round opt i _ hilt, List.get?_eq_get hilt, hcureq]
  · intro hlen
    have hi0 : i = 0 := Nat.lt_one_iff.mp (by rw [← hlen]; exact hilt)
    subst hi0
    apply hv1
    have hj0 : (navTargetIndex opt 0 (find_layout_files env fs).length).toNat = 0 := by
      rw [hlen]
      cases opt <;> decide
    rw [hj0, List.get?_eq_get hN]
    exact congrArg some hcureq

/-- Witness for the amended C2 at a clean two-entry catalog: navigation from
the first entry succeeds, and `Next` then `Prev` restores it. -/
theorem c2_witness :
    CleanSetup envT fsC2W
    ∧ stateLayoutValue envT fsC2W = some (S "/c/waybar/layouts/a.jsonc")
    ∧ S "/c/waybar/layouts/a.jsonc" ∈ find_layout_files envT fsC2W
    ∧ ∃ fs2 fs3,
        handle_layout_navigation envT fsC2W .next = .ok fs2
        ∧ handle_layout_navigation envT fs2 .prev = .ok fs3
        ∧ stateLayoutValue envT fs3 = some (S "/c/waybar/layouts/a.jsonc")
        ∧ ((find_layout_files envT fsC2W).length = 1 →
            stateLayoutValue envT fs2 = some (S "/c/waybar/layouts/a.jsonc")) :=
  ⟨by unfold CleanSetup cleanPath; decide, by decide, by decide,
   c2_round_trip envT fsC2W .next (S "/c/waybar/layouts/a.jsonc")
     (by unfold CleanSetup cleanPath; decide) (by decide) (by decide)⟩

end Waybar
